import Mathlib

/-!
Verification of the tree-database core of `simple-tree-db`
(`src/app/TreeDataBase.py`), as a shallow embedding.

Python strings are embedded as `List Char` (`Str`); Python `str.split(sep)`
for a one-character separator and `sep.join(pieces)` are embedded by
`splitOnChar` and `joinChar` below, with the same corner cases
(`"".split(",") = [""]`).

A Python `dict` is embedded as an insertion-ordered association list with
unique keys (`Dict`).  Assignment `d[k] = v` keeps the position of an
existing key and overwrites its value, appending new keys at the end
(`dictInsert`); `dict(pairs)` is `dictOfPairs`; `d.get(k)` is `dictGet`;
CPython's `dict == dict` compares lengths and looks every entry of the left
dict up in the right one, ignoring insertion order (`dictEqb`).

The list of children of a node is embedded as the mutually inductive type
`Children`, isomorphic to `List (TreeNode α)` through `Children.toList`,
so that every tree operation is structurally recursive and computable.

A raised Python exception (such as the `ValueError` escaping
`NodeIdentifier.parse_identifier` on a malformed segment, or the
`IndexError` of `get_current_level_identifier` on an empty identifier) is
embedded as `Except.error ()`; no code in `TreeDataBase.py` catches any
exception, so every error propagates to the caller.
-/

namespace TreeDb

abbrev Str := List Char

/-- Embeds Python `s.split(c)` for a single-character separator `c`:
always returns at least one (possibly empty) piece. -/
def splitOnChar (c : Char) : Str → List Str
  | [] => [[]]
  | a :: rest =>
    match splitOnChar c rest with
    | [] => [[]]
    | s :: ss => if a = c then [] :: s :: ss else (a :: s) :: ss

/-- Embeds Python `c.join(pieces)` for a single-character separator. -/
def joinChar (c : Char) : List Str → Str
  | [] => []
  | [s] => s
  | s :: rest => s ++ c :: joinChar c rest

/-- Insertion-ordered association list with unique keys: the embedding of a
Python `dict` with `Str` keys. -/
abbrev Dict := List (Str × Str)

/-- Embeds Python `d.get(k)` (and `d[k]` when the key is present). -/
def dictGet {β : Type} : List (Str × β) → Str → Option β
  | [], _ => none
  | (k, v) :: rest, key => if k = key then some v else dictGet rest key

/-- Embeds Python `d[k] = v`: overwrite in place if the key exists, else
append at the end. -/
def dictInsert {β : Type} : List (Str × β) → Str → β → List (Str × β)
  | [], k, v => [(k, v)]
  | (k', v') :: rest, k, v =>
    if k' = k then (k', v) :: rest else (k', v') :: dictInsert rest k v

/-- Embeds Python `dict(pairs)`: successive assignment of each pair. -/
def dictOfPairs (ps : List (Str × Str)) : Dict :=
  ps.foldl (fun d p => dictInsert d p.1 p.2) []

/-- Embeds CPython `dict.__eq__` (used by `NodeIdentifier.__eq__`): equal
sizes, and every entry of the left dict is present (same key, equal value)
in the right one.  Insertion order is ignored. -/
def dictEqb (a b : Dict) : Bool :=
  a.length == b.length && a.all (fun p => dictGet b p.1 == some p.2)

/-- Holds iff the keys of the association list are pairwise distinct (the
invariant every embedded Python dict satisfies by construction). -/
def keysNodupB {β : Type} : List (Str × β) → Bool
  | [] => true
  | (k, _) :: rest => (dictGet rest k).isNone && keysNodupB rest

/-- Embeds `NodeIdentifier.parse_identifier`:
`dict(kv.split("=") for kv in identifier.split(","))`.
A segment whose `=`-split does not have exactly two parts makes `dict(...)`
raise `ValueError`, embedded as `none`. -/
def parse_identifier (s : Str) : Option Dict :=
  (splitOnChar ',' s).foldlM
    (fun d seg =>
      match splitOnChar '=' seg with
      | [k, v] => some (dictInsert d k v)
      | _ => none)
    []

/-- Renders `f"{k}={v}"` for one identifier pair. -/
def renderPair (p : Str × Str) : Str := p.1 ++ '=' :: p.2

/-- Embeds `NodeIdentifier.__str__`:
`",".join(f"{k}={v}" for k, v in items)`. -/
def identStr (d : Dict) : Str := joinChar ',' (d.map renderPair)

/-- Embeds `NodeIdentifier.get_current_level_identifier`: take the last key
of the dict and render `f"{last_key}={d[last_key]}"`.  The value `none`
embeds the `IndexError` raised on an empty identifier. -/
def get_current_level_identifier (d : Dict) : Option Str :=
  match d.getLast? with
  | none => none
  | some (k, _) =>
    match dictGet d k with
    | some v => some (k ++ '=' :: v)
    | none => none

mutual

/-- Embeds `TreeNode`: a node of the tree, with its `uuid` (the `uuid4`
value generated at construction, abstracted as a `Nat` supplied by the
caller of the constructing operation), its `data` payload (an arbitrary
type `α`, embedding `Dict[str, any]`), its `node_identifier` dict and its
ordered `children` list. -/
inductive TreeNode (α : Type) : Type where
  | mk (uuid : Nat) (data : α) (node_identifier : Dict) (children : Children α)

/-- The ordered list of children of a node (`List["TreeNode"]` in the
source), as a mutually inductive type so that all tree operations are
structurally recursive. -/
inductive Children (α : Type) : Type where
  | nil
  | cons (c : TreeNode α) (rest : Children α)

end

deriving instance DecidableEq for TreeNode, Children

/-- The `id` attribute of a node. -/
def TreeNode.uuid {α : Type} : TreeNode α → Nat
  | .mk u _ _ _ => u

/-- The `data` attribute of a node. -/
def TreeNode.data {α : Type} : TreeNode α → α
  | .mk _ d _ _ => d

/-- The `node_identifier` attribute of a node (the wrapped dict). -/
def TreeNode.ident {α : Type} : TreeNode α → Dict
  | .mk _ _ i _ => i

/-- The `children` attribute of a node. -/
def TreeNode.children {α : Type} : TreeNode α → Children α
  | .mk _ _ _ cs => cs

/-- Replaces the children list of a node (the effect of mutating
`parent.children` in place). -/
def TreeNode.setChildren {α : Type} : TreeNode α → Children α → TreeNode α
  | .mk u d i _, cs => .mk u d i cs

/-- View of a `Children` value as a plain list. -/
def Children.toList {α : Type} : Children α → List (TreeNode α)
  | .nil => []
  | .cons c rest => c :: rest.toList

/-- Embeds `self.children.append(child_node)` (`TreeNode.add_child`). -/
def Children.push {α : Type} : Children α → TreeNode α → Children α
  | .nil, c => .cons c .nil
  | .cons x rest, c => .cons x (rest.push c)

mutual

/-- Pre-order listing of all nodes of a subtree: the node itself, then the
nodes of each child subtree, children left to right. -/
def preorder {α : Type} : TreeNode α → List (TreeNode α)
  | .mk u d i cs => .mk u d i cs :: preorderList cs

/-- Pre-order listing of all nodes of a forest. -/
def preorderList {α : Type} : Children α → List (TreeNode α)
  | .nil => []
  | .cons c rest => preorder c ++ preorderList rest

end

/-- The matching predicate of `TreeNode._search`:
`all(self.node_identifier.get(k) == v for k, v in query_dict.items())`,
i.e. every pair of the query is present with an equal value in the node's
identifier (subset match). -/
def matchesQ {α : Type} (t : TreeNode α) (q : Dict) : Bool :=
  q.all (fun p => dictGet t.ident p.1 == some p.2)

mutual

/-- Embeds `TreeNode._search`: return `self` if it matches the query, else
the first non-`None` result among the children, left to right. -/
def _search {α : Type} : TreeNode α → Dict → Option (TreeNode α)
  | .mk u d i cs, q =>
    if matchesQ (.mk u d i cs) q then some (.mk u d i cs)
    else _searchChildren cs q

/-- The `for child in self.children` loop of `TreeNode._search`. -/
def _searchChildren {α : Type} : Children α → Dict → Option (TreeNode α)
  | .nil, _ => none
  | .cons c rest, q =>
    match _search c q with
    | some r => some r
    | none => _searchChildren rest q

end

/-- Embeds `TreeNode.find_by_query`: parse the query text (a malformed text
raises `ValueError`, embedded as `.error`), then run `_search`. -/
def find_by_query {α : Type} (t : TreeNode α) (query : Str) :
    Except Unit (Option (TreeNode α)) :=
  match parse_identifier query with
  | none => .error ()
  | some d => .ok (_search t d)

mutual

/-- Embeds `TreeNode._extract_node_identifiers`: the identifiers of all
nodes of the subtree, pre-order. -/
def _extract_node_identifiers {α : Type} : TreeNode α → List Dict
  | .mk _ _ i cs => i :: extractList cs

/-- Forest part of `_extract_node_identifiers`. -/
def extractList {α : Type} : Children α → List Dict
  | .nil => []
  | .cons c rest => _extract_node_identifiers c ++ extractList rest

end

/-- The record returned by `TreeNode.beauty_dict`:
`{"id": ..., "data": ..., "node_id": ...}`. -/
structure Beauty (α : Type) : Type where
  uuid : Nat
  data : α
  node_id : Dict
deriving DecidableEq

/-- Embeds `TreeNode.beauty_dict`. -/
def beauty_dict {α : Type} (t : TreeNode α) : Beauty α :=
  ⟨t.uuid, t.data, t.ident⟩

mutual

/-- Embeds `TreeNode.get_all_children`: the `beauty_dict` records of all
nodes of the subtree, pre-order. -/
def get_all_children {α : Type} : TreeNode α → List (Beauty α)
  | .mk u d i cs => ⟨u, d, i⟩ :: gacList cs

/-- Forest part of `get_all_children`. -/
def gacList {α : Type} : Children α → List (Beauty α)
  | .nil => []
  | .cons c rest => get_all_children c ++ gacList rest

end

mutual

/-- Replaces the data payload of the first node, in pre-order, matching the
query: the mutation `node.data = new_data` performed by
`TreeNode.update_node` through the reference returned by `find_by_query`.
The flag reports whether a node was found. -/
def updateFirst {α : Type} : TreeNode α → Dict → α → TreeNode α × Bool
  | .mk u d i cs, q, nd =>
    if matchesQ (.mk u d i cs) q then (.mk u nd i cs, true)
    else
      let r := updateFirstChildren cs q nd
      (.mk u d i r.1, r.2)

/-- Forest part of `updateFirst`. -/
def updateFirstChildren {α : Type} : Children α → Dict → α → Children α × Bool
  | .nil, _, _ => (.nil, false)
  | .cons c rest, q, nd =>
    let r := updateFirst c q nd
    if r.2 then (.cons r.1 rest, true)
    else
      let r2 := updateFirstChildren rest q nd
      (.cons c r2.1, r2.2)

end

/-- Embeds `TreeNode.update_node`: locate the node via `find_by_query`
(parse errors propagate), replace its whole payload on success. -/
def update_node {α : Type} (t : TreeNode α) (query : Str) (new_data : α) :
    Except Unit (TreeNode α × Bool × String) :=
  match parse_identifier query with
  | none => .error ()
  | some d =>
    match _search t d with
    | some _ => .ok ((updateFirst t d new_data).1, true, "Node updated successfully.")
    | none => .ok (t, false, "Node not found.")

/-- Embeds `child.node_identifier.get_current_level_identifier()`; the
`.error` case embeds the `IndexError` raised on an empty identifier. -/
def currentLevelE {α : Type} (t : TreeNode α) : Except Unit Str :=
  match get_current_level_identifier t.ident with
  | none => .error ()
  | some s => .ok s

/-- Embeds `NodeIdentifier(query).get_current_level_identifier()` as
evaluated inside `_delete_node`: parse the query, then take its last
pair. -/
def queryCurrentLevel (query : Str) : Except Unit Str :=
  match parse_identifier query with
  | none => .error ()
  | some d =>
    match get_current_level_identifier d with
    | none => .error ()
    | some s => .ok s

/-- Embeds the inner `_delete_node(parent, query)` of
`TreeNode.delete_node`, expressed on the parent's children list: for each
child in order, if its current-level identifier equals the query's, splice
it out of the list (`del parent.children[i]`, dropping its whole subtree);
otherwise recurse into the child first, then move to the next sibling.
Returns the new children list if a deletion happened. -/
def _delete_children {α : Type} (query : Str) :
    Children α → Except Unit (Option (Children α))
  | .nil => .ok none
  | .cons (.mk u d i cs) rest =>
    match currentLevelE (TreeNode.mk u d i cs) with
    | .error e => .error e
    | .ok ccl =>
      match queryCurrentLevel query with
      | .error e => .error e
      | .ok qcl =>
        if ccl = qcl then .ok (some rest)
        else
          match _delete_children query cs with
          | .error e => .error e
          | .ok (some cs') => .ok (some (.cons (.mk u d i cs') rest))
          | .ok none =>
            match _delete_children query rest with
            | .error e => .error e
            | .ok (some rest') => .ok (some (.cons (.mk u d i cs) rest'))
            | .ok none => .ok none

/-- Embeds `TreeNode.delete_node`: confirm existence via `find_by_query`
(subset match), then run the current-level-identifier deletion scan. -/
def delete_node {α : Type} (t : TreeNode α) (query : Str) :
    Except Unit (TreeNode α × Bool × String) :=
  match find_by_query t query with
  | .error e => .error e
  | .ok (some _) =>
    match _delete_children query t.children with
    | .error e => .error e
    | .ok (some cs') => .ok (t.setChildren cs', true, "Node deleted successfully.")
    | .ok none => .ok (t, false, "Node not found.")
  | .ok none => .ok (t, false, "Node not found.")

/-- Embeds `TreeNode.is_valid_new_node_identifier`:
`new_node_identifier.startswith(f"{root_key}=")` where `root_key` is the
first key of `self`'s identifier; `next(iter(...))` on an empty identifier
raises `StopIteration`, embedded as `.error`. -/
def is_valid_new_node_identifier {α : Type} (t : TreeNode α) (newId : Str) :
    Except Unit Bool :=
  match t.ident.head? with
  | none => .error ()
  | some p => .ok ((p.1 ++ ['=']).isPrefixOf newId)

mutual

/-- Appends a new child to the first node, in pre-order, matching the
query: the `parent_node.add_child(new_node)` performed by
`TreeNode.insert_node` through the reference returned by `find_by_query`.
The flag reports whether a matching parent was found. -/
def appendFirst {α : Type} : TreeNode α → Dict → TreeNode α → TreeNode α × Bool
  | .mk u d i cs, q, c =>
    if matchesQ (.mk u d i cs) q then (.mk u d i (cs.push c), true)
    else
      let r := appendFirstChildren cs q c
      (.mk u d i r.1, r.2)

/-- Forest part of `appendFirst`. -/
def appendFirstChildren {α : Type} : Children α → Dict → TreeNode α → Children α × Bool
  | .nil, _, _ => (.nil, false)
  | .cons x rest, q, c =>
    let r := appendFirst x q c
    if r.2 then (.cons r.1 rest, true)
    else
      let r2 := appendFirstChildren rest q c
      (.cons x r2.1, r2.2)

end

/-- Embeds `TreeNode.insert_node`.  `freshId` stands for the `uuid4` value
generated for the new node.  Steps, in source order: validity check on the
raw text; parse (`ValueError` propagates); split the parsed items into the
ancestor prefix and the trailing own pair (`*parent_identifier_items,
new_node_own_identifier = ...items()`, which raises on an empty dict);
render the prefix and search for the parent via `find_by_query` (inlined:
parse of the rendered prefix, then `_search`); duplicate check of the
parsed identifier against every identifier of the subtree with dict
equality; append the new node to the located parent. -/
def insert_node {α : Type} (t : TreeNode α) (new_node_data : α)
    (new_node_identifier : Str) (freshId : Nat) :
    Except Unit (TreeNode α × Bool × String) :=
  match is_valid_new_node_identifier t new_node_identifier with
  | .error e => .error e
  | .ok false => .ok (t, false, "Invalid new node identifier.")
  | .ok true =>
    match parse_identifier new_node_identifier with
    | none => .error ()
    | some d =>
      match d.getLast? with
      | none => .error ()
      | some _own =>
        match parse_identifier (identStr d.dropLast) with
        | none => .error ()
        | some pd =>
          match _search t pd with
          | none => .ok (t, false, "Parent node not found.")
          | some _ =>
            if (_extract_node_identifiers t).any (fun e => dictEqb e d) then
              .ok (t, false, "A node with this identifier already exists.")
            else
              .ok ((appendFirst t pd (TreeNode.mk freshId new_node_data d .nil)).1,
                true, "Node inserted successfully.")

/-- The nested structure returned by `TreeNode.get_tree_structure`: either
the empty list a leaf returns, or a dict from current-level identifiers to
child structures. -/
inductive TreeStructure : Type where
  | leafList
  | mapping (entries : List (Str × TreeStructure))

mutual

/-- Embeds `TreeNode.get_tree_structure`: a leaf yields the empty list; an
internal node yields the dict built by assigning
`node_dict[child.current_level_identifier] = child.get_tree_structure()`
for each child in order. -/
def get_tree_structure {α : Type} : TreeNode α → Except Unit TreeStructure
  | .mk _ _ _ .nil => .ok .leafList
  | .mk _ _ _ (.cons c rest) =>
    match structFold (.cons c rest) [] with
    | .error e => .error e
    | .ok entries => .ok (.mapping entries)

/-- The `for child in self.children` loop of `get_tree_structure`,
threading the dict being built. -/
def structFold {α : Type} : Children α → List (Str × TreeStructure) →
    Except Unit (List (Str × TreeStructure))
  | .nil, acc => .ok acc
  | .cons c rest, acc =>
    match get_current_level_identifier c.ident with
    | none => .error ()
    | some k =>
      match get_tree_structure c with
      | .error e => .error e
      | .ok st => structFold rest (dictInsert acc k st)

end

/-- The store: an initialized `TreeDataBase`, holding the root node, the
`db_path` string and the persisted blob (the pickled tree last written to
the file, `none` when nothing was written yet). -/
structure TreeDataBase (α : Type) : Type where
  root : TreeNode α
  db_path : Str
  saved : Option (TreeNode α)
deriving DecidableEq

/-- Embeds `TreeDataBase.save_cb`:
`if self.db_path: self.save_tree(self.db_path)` — persist the whole tree
when the path is truthy (nonempty). -/
def TreeDataBase.save_cb {α : Type} (db : TreeDataBase α) : TreeDataBase α :=
  if db.db_path = [] then db else { db with saved := some db.root }

/-- Embeds `TreeDataBase.insert`: delegate to `insert_node` on the root
(the tree mutation lands in `root`), then
`if success and self.save_cb: self.save_cb()` (a bound method is always
truthy, so the guard is just `success`). -/
def TreeDataBase.insert {α : Type} (db : TreeDataBase α) (new_node_data : α)
    (new_node_identifier : Str) (freshId : Nat) :
    Except Unit (TreeDataBase α × Bool × String) :=
  match insert_node db.root new_node_data new_node_identifier freshId with
  | .error e => .error e
  | .ok (r, success, message) =>
    let db' : TreeDataBase α := { db with root := r }
    if success then .ok (db'.save_cb, success, message)
    else .ok (db', success, message)

/-- Embeds `TreeDataBase.update`. -/
def TreeDataBase.update {α : Type} (db : TreeDataBase α) (query : Str) (new_data : α) :
    Except Unit (TreeDataBase α × Bool × String) :=
  match update_node db.root query new_data with
  | .error e => .error e
  | .ok (r, success, message) =>
    let db' : TreeDataBase α := { db with root := r }
    if success then .ok (db'.save_cb, success, message)
    else .ok (db', success, message)

/-- Embeds `TreeDataBase.delete`. -/
def TreeDataBase.delete {α : Type} (db : TreeDataBase α) (query : Str) :
    Except Unit (TreeDataBase α × Bool × String) :=
  match delete_node db.root query with
  | .error e => .error e
  | .ok (r, success, message) =>
    let db' : TreeDataBase α := { db with root := r }
    if success then .ok (db'.save_cb, success, message)
    else .ok (db', success, message)

/-- Embeds `TreeDataBase.query`: delegate to `find_by_query` on the root.
It returns only the lookup result: the store (root, path and persisted
blob) is not part of the result, so a query can never change it. -/
def TreeDataBase.query {α : Type} (db : TreeDataBase α) (query : Str) :
    Except Unit (Option (TreeNode α)) :=
  find_by_query db.root query

/-- Embeds `TreeDataBase.get_all_children`. -/
def TreeDataBase.get_all_children {α : Type} (db : TreeDataBase α) : List (Beauty α) :=
  TreeDb.get_all_children db.root

/-- Embeds `TreeDataBase.create_tree_db`: build the root node (parsing the
identifier; `ValueError` propagates), set the path, and save
unconditionally (`open("")` on an empty path raises, embedded as
`.error`). -/
def create_tree_db {α : Type} (path : Str) (data : α) (node_identifier : Str)
    (freshId : Nat) : Except Unit (TreeDataBase α) :=
  match parse_identifier node_identifier with
  | none => .error ()
  | some d =>
    if path = [] then .error ()
    else
      let root : TreeNode α := .mk freshId data d .nil
      .ok { root := root, db_path := path, saved := some root }

/-- The pair-quality predicate every entry of a parsed identifier
satisfies: no separator character occurs in a key or a value. -/
def goodPair (p : Str × Str) : Prop :=
  ',' ∉ p.1 ∧ '=' ∉ p.1 ∧ ',' ∉ p.2 ∧ '=' ∉ p.2

instance goodPairDecidable (p : Str × Str) : Decidable (goodPair p) := by
  unfold goodPair
  infer_instance

mutual

/-- Well-formedness of a tree as Python builds it: every node's identifier
dict is nonempty (a parsed identifier always is, and
`get_current_level_identifier` raises on an empty one) and has pairwise
distinct keys (automatic for a Python dict). -/
def wfT {α : Type} : TreeNode α → Bool
  | .mk _ _ i cs => !i.isEmpty && keysNodupB i && wfC cs

/-- Forest part of `wfT`. -/
def wfC {α : Type} : Children α → Bool
  | .nil => true
  | .cons c rest => wfT c && wfC rest

end

/-! Concrete scenarios, used by the closed counterexample and witness
theorems below.  All trees are built through the API operations
themselves. -/

/-- Unwraps the tree out of an operation result (scenario helper; the
error branch never fires in the scenarios below). -/
def okt : Except Unit (TreeNode Nat × Bool × String) → TreeNode Nat
  | .ok (t, _, _) => t
  | .error _ => .mk 0 0 [] .nil

/-- A root node created from the identifier text `"o=root"`. -/
def root0 : TreeNode Nat := .mk 0 0 [("o".toList, "root".toList)] .nil

/-- `root0` after `insert({...}, "o=root,m=a")`. -/
def t1 : TreeNode Nat := okt (insert_node root0 1 "o=root,m=a".toList 1)

/-- `t1` after `insert({...}, "o=root,m=a,c=1")`. -/
def t2 : TreeNode Nat := okt (insert_node t1 2 "o=root,m=a,c=1".toList 2)

/-- `t2` after `insert({...}, "o=root,c=1")`. -/
def t3 : TreeNode Nat := okt (insert_node t2 3 "o=root,c=1".toList 3)

/-- A root node created from the identifier text `"a=1,b=2,c=3"`. -/
def rootX : TreeNode Nat :=
  .mk 0 0 [("a".toList, "1".toList), ("b".toList, "2".toList), ("c".toList, "3".toList)] .nil

/-- `rootX` after `insert({...}, "a=1,c=3")`. -/
def tX : TreeNode Nat := okt (insert_node rootX 1 "a=1,c=3".toList 1)

/-- A root node created from the identifier text `"a=1,b=2"`. -/
def rootY : TreeNode Nat :=
  .mk 0 0 [("a".toList, "1".toList), ("b".toList, "2".toList)] .nil

/-- `rootY` after `insert({...}, "a=1,x=9")`. -/
def tY : TreeNode Nat := okt (insert_node rootY 1 "a=1,x=9".toList 1)

/-- A store over `root0` with path `"p"` (the Initialized state). -/
def db0 : TreeDataBase Nat := { root := root0, db_path := "p".toList, saved := some root0 }

end TreeDb

deriving instance DecidableEq for Except

namespace TreeDb

/-! ### Association-list (Python dict) lemmas -/

theorem dictGet_mem {β : Type} {d : List (Str × β)} {k : Str} {v : β}
    (h : dictGet d k = some v) : (k, v) ∈ d := by
  induction d with
  | nil => simp [dictGet] at h
  | cons p rest ih =>
    obtain ⟨k', v'⟩ := p
    by_cases hk : k' = k
    · subst hk
      simp [dictGet] at h
      simp [h]
    · simp [dictGet, hk] at h
      exact List.mem_cons_of_mem _ (ih h)

theorem dictGet_eq_none_iff {β : Type} {d : List (Str × β)} {k : Str} :
    dictGet d k = none ↔ k ∉ d.map Prod.fst := by
  induction d with
  | nil => simp [dictGet]
  | cons p rest ih =>
    obtain ⟨k', v'⟩ := p
    by_cases hk : k' = k
    · subst hk
      have h1 : dictGet ((k', v') :: rest) k' = some v' := by simp [dictGet]
      rw [h1, List.map_cons]
      constructor
      · intro h
        cases h
      · intro h
        exact absurd (List.mem_cons_self _ _) h
    · have h1 : dictGet ((k', v') :: rest) k = dictGet rest k := by simp [dictGet, hk]
      rw [h1, ih, List.map_cons]
      constructor
      · intro h hm
        rcases List.mem_cons.mp hm with he | hm2
        · exact hk he.symm
        · exact h hm2
      · intro h hm
        exact h (List.mem_cons_of_mem _ hm)

theorem dictGet_isSome_of_mem {β : Type} {d : List (Str × β)} {k : Str} {v : β}
    (h : (k, v) ∈ d) : dictGet d k ≠ none := by
  intro hnone
  exact (dictGet_eq_none_iff.mp hnone) (List.mem_map_of_mem Prod.fst h)

theorem keysNodupB_iff {β : Type} {d : List (Str × β)} :
    keysNodupB d = true ↔ (d.map Prod.fst).Nodup := by
  induction d with
  | nil => simp [keysNodupB]
  | cons p rest ih =>
    obtain ⟨k, v⟩ := p
    simp only [keysNodupB, Bool.and_eq_true, Option.isNone_iff_eq_none,
      dictGet_eq_none_iff, List.map_cons, List.nodup_cons, ih]

theorem mem_dictGet {β : Type} {d : List (Str × β)} (hnd : keysNodupB d = true)
    {k : Str} {v : β} (h : (k, v) ∈ d) : dictGet d k = some v := by
  induction d with
  | nil => simp at h
  | cons p rest ih =>
    obtain ⟨k', v'⟩ := p
    simp only [keysNodupB, Bool.and_eq_true, Option.isNone_iff_eq_none] at hnd
    rcases List.mem_cons.mp h with h1 | h1
    · rw [show k' = k by exact congrArg Prod.fst h1.symm] at hnd ⊢
      simp [dictGet]
      exact (congrArg Prod.snd h1).symm
    · have hne : k' ≠ k := by
        intro he
        subst he
        exact dictGet_isSome_of_mem h1 hnd.1
      simp [dictGet, hne]
      exact ih hnd.2 h1

theorem nodup_of_keysNodupB {β : Type} {d : List (Str × β)}
    (h : keysNodupB d = true) : d.Nodup :=
  List.Nodup.of_map Prod.fst (keysNodupB_iff.mp h)

/-- Characterization of CPython dict equality on unique-key association
lists: it holds iff the two entry lists are permutations of each other. -/
theorem dictEqb_iff_perm {a b : Dict} (ha : keysNodupB a = true)
    (hb : keysNodupB b = true) : dictEqb a b = true ↔ a.Perm b := by
  constructor
  · intro h
    simp only [dictEqb, Bool.and_eq_true, beq_iff_eq, List.all_eq_true] at h
    have hsub : a ⊆ b := by
      intro p hp
      have := h.2 p hp
      exact dictGet_mem this
    exact (List.subperm_of_subset (nodup_of_keysNodupB ha) hsub).perm_of_length_le
      (le_of_eq h.1.symm)
  · intro h
    simp only [dictEqb, Bool.and_eq_true, beq_iff_eq, List.all_eq_true]
    refine ⟨h.length_eq, fun p hp => ?_⟩
    have : p ∈ b := h.mem_iff.mp hp
    simp [mem_dictGet hb (show (p.1, p.2) ∈ b by simpa using this)]

theorem dictEqb_refl {d : Dict} (h : keysNodupB d = true) : dictEqb d d = true :=
  (dictEqb_iff_perm h h).mpr (List.Perm.refl d)

/-! ### Split/join and parsing lemmas -/

theorem splitOnChar_ne_nil {c : Char} {s : Str} : splitOnChar c s ≠ [] := by
  cases s with
  | nil => simp [splitOnChar]
  | cons a rest =>
    simp only [splitOnChar]
    cases splitOnChar c rest with
    | nil => simp
    | cons s0 ss =>
      by_cases h : a = c <;> simp [h]

theorem splitOnChar_of_not_mem {c : Char} {s : Str} (h : c ∉ s) :
    splitOnChar c s = [s] := by
  induction s with
  | nil => rfl
  | cons a rest ih =>
    have hac : a ≠ c := fun he => h (he ▸ List.mem_cons_self a rest)
    have hcr : c ∉ rest := fun hm => h (List.mem_cons_of_mem a hm)
    simp only [splitOnChar, ih hcr]
    simp [hac]

theorem splitOnChar_append {c : Char} {s t : Str} (h : c ∉ s) :
    splitOnChar c (s ++ c :: t) = s :: splitOnChar c t := by
  induction s with
  | nil =>
    simp only [List.nil_append, splitOnChar]
    cases hq : splitOnChar c t with
    | nil => exact absurd hq splitOnChar_ne_nil
    | cons s0 ss => simp
  | cons a rest ih =>
    have hac : a ≠ c := fun he => h (he ▸ List.mem_cons_self a rest)
    have hcr : c ∉ rest := fun hm => h (List.mem_cons_of_mem a hm)
    simp only [List.cons_append, splitOnChar, List.append_eq]
    rw [ih hcr]
    simp [hac]

theorem splitOnChar_joinChar {c : Char} {l : List Str} (hne : l ≠ [])
    (h : ∀ s ∈ l, c ∉ s) : splitOnChar c (joinChar c l) = l := by
  induction l with
  | nil => exact absurd rfl hne
  | cons s rest ih =>
    cases rest with
    | nil =>
      simp only [joinChar]
      exact splitOnChar_of_not_mem (h s (List.mem_cons_self s []))
    | cons s2 rest2 =>
      have hjoin : joinChar c (s :: s2 :: rest2) = s ++ c :: joinChar c (s2 :: rest2) := rfl
      rw [hjoin, splitOnChar_append (h s (List.mem_cons_self _ _))]
      rw [ih (by simp) (fun x hx => h x (List.mem_cons_of_mem s hx))]

theorem mem_of_mem_splitOnChar {c : Char} {s x : Str} (h : x ∈ splitOnChar c s) :
    ∀ a ∈ x, a ∈ s := by
  induction s generalizing x with
  | nil =>
    simp only [splitOnChar, List.mem_singleton] at h
    subst h
    simp
  | cons b rest ih =>
    simp only [splitOnChar] at h
    cases hq : splitOnChar c rest with
    | nil => exact absurd hq splitOnChar_ne_nil
    | cons s0 ss =>
      rw [hq] at h
      by_cases hbc : b = c
      · simp only [if_pos hbc] at h
        rcases List.mem_cons.mp h with h1 | h1
        · subst h1; intro a ha; cases ha
        · intro a ha
          exact List.mem_cons_of_mem b (ih (hq ▸ h1) a ha)
      · simp only [if_neg hbc] at h
        rcases List.mem_cons.mp h with h1 | h1
        · subst h1
          intro a ha
          rcases List.mem_cons.mp ha with h2 | h2
          · exact h2 ▸ List.mem_cons_self b rest
          · exact List.mem_cons_of_mem b
              (ih (hq ▸ List.mem_cons_self s0 ss) a h2)
        · intro a ha
          exact List.mem_cons_of_mem b (ih (hq ▸ List.mem_cons_of_mem s0 h1) a ha)

theorem not_mem_of_mem_splitOnChar {c : Char} {s x : Str}
    (h : x ∈ splitOnChar c s) : c ∉ x := by
  induction s generalizing x with
  | nil =>
    simp only [splitOnChar, List.mem_singleton] at h
    subst h
    simp
  | cons b rest ih =>
    simp only [splitOnChar] at h
    cases hq : splitOnChar c rest with
    | nil => exact absurd hq splitOnChar_ne_nil
    | cons s0 ss =>
      rw [hq] at h
      by_cases hbc : b = c
      · simp only [if_pos hbc] at h
        rcases List.mem_cons.mp h with h1 | h1
        · subst h1; simp
        · exact ih (hq ▸ h1)
      · simp only [if_neg hbc] at h
        rcases List.mem_cons.mp h with h1 | h1
        · subst h1
          intro hm
          rcases List.mem_cons.mp hm with h2 | h2
          · exact hbc h2.symm
          · exact ih (hq ▸ List.mem_cons_self s0 ss) h2
        · exact ih (hq ▸ List.mem_cons_of_mem s0 h1)

theorem dictInsert_ne_nil {β : Type} {d : List (Str × β)} {k : Str} {v : β} :
    dictInsert d k v ≠ [] := by
  cases d with
  | nil => simp [dictInsert]
  | cons p rest =>
    obtain ⟨k', v'⟩ := p
    by_cases h : k' = k <;> simp [dictInsert, h]

theorem mem_dictInsert {β : Type} {d : List (Str × β)} {k : Str} {v : β} {p : Str × β}
    (h : p ∈ dictInsert d k v) : p ∈ d ∨ p = (k, v) := by
  induction d with
  | nil => simp [dictInsert] at h; simp [h]
  | cons q rest ih =>
    obtain ⟨k', v'⟩ := q
    by_cases hk : k' = k
    · subst hk
      simp only [dictInsert, if_pos rfl] at h
      rcases List.mem_cons.mp h with h1 | h1
      · right; exact h1
      · left; exact List.mem_cons_of_mem _ h1
    · simp only [dictInsert, if_neg hk] at h
      rcases List.mem_cons.mp h with h1 | h1
      · left; exact h1 ▸ List.mem_cons_self _ _
      · rcases ih h1 with h2 | h2
        · left; exact List.mem_cons_of_mem _ h2
        · right; exact h2

theorem dictGet_dictInsert_ne {β : Type} {d : List (Str × β)} {k k' : Str} {v : β}
    (h : k' ≠ k) : dictGet (dictInsert d k v) k' = dictGet d k' := by
  induction d with
  | nil => simp [dictInsert, dictGet, Ne.symm h]
  | cons q rest ih =>
    obtain ⟨k0, v0⟩ := q
    by_cases hk : k0 = k
    · subst hk
      have hne : k0 ≠ k' := Ne.symm h
      simp [dictInsert, dictGet, hne]
    · by_cases hk2 : k0 = k'
      · subst hk2
        simp [dictInsert, hk, dictGet]
      · simp [dictInsert, hk, dictGet, hk2, ih]

theorem keysNodupB_dictInsert {β : Type} {d : List (Str × β)} {k : Str} {v : β}
    (h : keysNodupB d = true) : keysNodupB (dictInsert d k v) = true := by
  induction d with
  | nil => simp [dictInsert, keysNodupB, dictGet]
  | cons q rest ih =>
    obtain ⟨k0, v0⟩ := q
    simp only [keysNodupB, Bool.and_eq_true, Option.isNone_iff_eq_none] at h
    by_cases hk : k0 = k
    · subst hk
      simp only [dictInsert, if_pos rfl, keysNodupB, Bool.and_eq_true,
        Option.isNone_iff_eq_none]
      exact ⟨h.1, h.2⟩
    · simp only [dictInsert, if_neg hk, keysNodupB, Bool.and_eq_true,
        Option.isNone_iff_eq_none]
      refine ⟨?_, ih h.2⟩
      rw [dictGet_dictInsert_ne hk]
      exact h.1

theorem dictGet_append {β : Type} {a b : List (Str × β)} {k : Str} :
    dictGet (a ++ b) k = (dictGet a k).or (dictGet b k) := by
  induction a with
  | nil => simp [dictGet]
  | cons p rest ih =>
    obtain ⟨k', v'⟩ := p
    by_cases h : k' = k <;> simp [dictGet, h, ih]

theorem dictInsert_of_get_none {β : Type} {d : List (Str × β)} {k : Str} {v : β}
    (h : dictGet d k = none) : dictInsert d k v = d ++ [(k, v)] := by
  induction d with
  | nil => rfl
  | cons p rest ih =>
    obtain ⟨k', v'⟩ := p
    by_cases hk : k' = k
    · subst hk; simp [dictGet] at h
    · simp only [dictGet, if_neg hk] at h
      simp [dictInsert, hk, ih h]

theorem foldl_dictInsert_append {l : List (Str × Str)} :
    ∀ acc : Dict, keysNodupB l = true → (∀ p ∈ l, dictGet acc p.1 = none) →
    l.foldl (fun d p => dictInsert d p.1 p.2) acc = acc ++ l := by
  induction l with
  | nil => intro acc _ _; simp
  | cons p rest ih =>
    intro acc hnd hd
    obtain ⟨k, v⟩ := p
    simp only [keysNodupB, Bool.and_eq_true, Option.isNone_iff_eq_none] at hnd
    have h1 : dictInsert acc k v = acc ++ [(k, v)] :=
      dictInsert_of_get_none (hd (k, v) (List.mem_cons_self _ _))
    simp only [List.foldl_cons, h1]
    rw [ih (acc ++ [(k, v)]) hnd.2 ?_]
    · simp
    · intro q hq
      rw [dictGet_append]
      have hq1 : dictGet acc q.1 = none := hd q (List.mem_cons_of_mem _ hq)
      have hq2 : q.1 ≠ k := by
        intro he
        have : (q.1, q.2) ∈ rest := by simpa using hq
        exact dictGet_isSome_of_mem (he ▸ this) hnd.1
      have h3 : dictGet [(k, v)] q.1 = none := by simp [dictGet, Ne.symm hq2]
      simp [hq1, h3]

theorem dictOfPairs_eq_self {l : List (Str × Str)} (h : keysNodupB l = true) :
    dictOfPairs l = l := by
  unfold dictOfPairs
  rw [foldl_dictInsert_append [] h (fun p _ => rfl)]
  simp

theorem parse_step_aux {segs : List Str} :
    ∀ acc d : Dict, segs.foldlM (fun d seg =>
        match splitOnChar '=' seg with
        | [k, v] => some (dictInsert d k v)
        | _ => none) acc = some d →
      (∀ x ∈ segs, ',' ∉ x) → (∀ p ∈ acc, goodPair p) → keysNodupB acc = true →
      keysNodupB d = true ∧ (∀ p ∈ d, goodPair p) ∧ (acc ≠ [] ∨ segs ≠ [] → d ≠ []) := by
  induction segs with
  | nil =>
    intro acc d h _ hg hnd
    simp only [List.foldlM_nil] at h
    have had : acc = d := Option.some.inj h
    subst had
    exact ⟨hnd, hg, fun hne => by rcases hne with h1 | h1; exact h1; exact absurd rfl h1⟩
  | cons x xs ih =>
    intro acc d h hseg hg hnd
    simp only [List.foldlM_cons] at h
    cases hsp : splitOnChar '=' x with
    | nil => rw [hsp] at h; cases h
    | cons k tl =>
      cases tl with
      | nil => rw [hsp] at h; cases h
      | cons v tl2 =>
        cases tl2 with
        | nil =>
          rw [hsp] at h
          simp only [Option.bind_eq_bind, Option.some_bind] at h
          have hk : '=' ∉ k := not_mem_of_mem_splitOnChar (hsp ▸ List.mem_cons_self _ _)
          have hv : '=' ∉ v :=
            not_mem_of_mem_splitOnChar (hsp ▸ List.mem_cons_of_mem k (List.mem_cons_self _ _))
          have hxmem : ',' ∉ x := hseg x (List.mem_cons_self _ _)
          have hkc : ',' ∉ k := fun hm =>
            hxmem (mem_of_mem_splitOnChar (hsp ▸ List.mem_cons_self _ _) ',' hm)
          have hvc : ',' ∉ v := fun hm =>
            hxmem (mem_of_mem_splitOnChar
              (hsp ▸ List.mem_cons_of_mem k (List.mem_cons_self _ _)) ',' hm)
          have := ih (dictInsert acc k v) d h
            (fun y hy => hseg y (List.mem_cons_of_mem _ hy))
            (fun p hp => by
              rcases mem_dictInsert hp with h1 | h1
              · exact hg p h1
              · subst h1; exact ⟨hkc, hk, hvc, hv⟩)
            (keysNodupB_dictInsert hnd)
          exact ⟨this.1, this.2.1, fun _ => this.2.2 (Or.inl dictInsert_ne_nil)⟩
        | cons _ _ => rw [hsp] at h; cases h

/-- Every successfully parsed identifier is a nonempty dict with pairwise
distinct keys whose keys and values contain no separator character. -/
theorem parse_identifier_props {s : Str} {d : Dict} (h : parse_identifier s = some d) :
    d ≠ [] ∧ keysNodupB d = true ∧ ∀ p ∈ d, goodPair p := by
  unfold parse_identifier at h
  have := parse_step_aux [] d h
    (fun x hx => not_mem_of_mem_splitOnChar hx) (fun p hp => absurd hp (by simp)) rfl
  exact ⟨this.2.2 (Or.inr splitOnChar_ne_nil), this.1, this.2.1⟩

theorem splitOnChar_renderPair {p : Str × Str} (hk : '=' ∉ p.1) (hv : '=' ∉ p.2) :
    splitOnChar '=' (renderPair p) = [p.1, p.2] := by
  unfold renderPair
  rw [splitOnChar_append hk, splitOnChar_of_not_mem hv]

theorem foldlM_render {l : List (Str × Str)} :
    ∀ acc : Dict, (∀ p ∈ l, '=' ∉ p.1 ∧ '=' ∉ p.2) →
    (l.map renderPair).foldlM (fun d seg =>
        match splitOnChar '=' seg with
        | [k, v] => some (dictInsert d k v)
        | _ => none) acc =
      some (l.foldl (fun d p => dictInsert d p.1 p.2) acc) := by
  induction l with
  | nil => intro acc _; rfl
  | cons p rest ih =>
    intro acc hl
    have hp := hl p (List.mem_cons_self _ _)
    simp only [List.map_cons, List.foldlM_cons, splitOnChar_renderPair hp.1 hp.2]
    simp only [Option.bind_eq_bind, Option.some_bind, List.foldl_cons]
    exact ih _ (fun q hq => hl q (List.mem_cons_of_mem _ hq))

/-- Round trip: rendering a well-formed pair list and parsing it back
yields exactly the same ordered pair list. -/
theorem parse_identifier_identStr {d : Dict} (h1 : d ≠ []) (h2 : keysNodupB d = true)
    (h3 : ∀ p ∈ d, goodPair p) : parse_identifier (identStr d) = some d := by
  unfold parse_identifier identStr
  rw [splitOnChar_joinChar (by simpa using h1) ?hmem]
  case hmem =>
    intro x hx
    rcases List.mem_map.mp hx with ⟨p, hp, he⟩
    subst he
    have hgp := h3 p hp
    unfold renderPair
    intro hm
    rcases List.mem_append.mp hm with h4 | h4
    · exact hgp.1 h4
    · rcases List.mem_cons.mp h4 with h5 | h5
      · cases h5
      · exact hgp.2.2.1 h5
  rw [foldlM_render [] (fun p hp => ⟨(h3 p hp).2.1, (h3 p hp).2.2.2⟩)]
  have := foldl_dictInsert_append [] h2 (fun p _ => rfl)
  rw [this]
  simp

/-! ### Tree traversal lemmas -/

theorem self_mem_preorder {α : Type} (t : TreeNode α) : t ∈ preorder t := by
  cases t
  simp [preorder]

mutual

theorem _search_eq_find {α : Type} (q : Dict) : ∀ t : TreeNode α,
    _search t q = (preorder t).find? (fun n => matchesQ n q)
  | .mk u d i cs => by
    rw [preorder, _search]
    by_cases h : matchesQ (.mk u d i cs) q
    · rw [if_pos h]
      exact (List.find?_cons_of_pos _ (by simpa using h)).symm
    · rw [if_neg h, _searchChildren_eq_find q cs]
      exact (List.find?_cons_of_neg _ (by simpa using h)).symm

theorem _searchChildren_eq_find {α : Type} (q : Dict) : ∀ cs : Children α,
    _searchChildren cs q = (preorderList cs).find? (fun n => matchesQ n q)
  | .nil => rfl
  | .cons c rest => by
    rw [preorderList, _searchChildren, List.find?_append,
      _search_eq_find q c, _searchChildren_eq_find q rest]
    cases (preorder c).find? (fun n => matchesQ n q) <;> simp [Option.or]

end

mutual

theorem extract_eq {α : Type} : ∀ t : TreeNode α,
    _extract_node_identifiers t = (preorder t).map TreeNode.ident
  | .mk u d i cs => by
    rw [preorder, _extract_node_identifiers, List.map_cons, extractList_eq cs]
    rfl

theorem extractList_eq {α : Type} : ∀ cs : Children α,
    extractList cs = (preorderList cs).map TreeNode.ident
  | .nil => rfl
  | .cons c rest => by
    rw [preorderList, extractList, List.map_append, extract_eq c, extractList_eq rest]

end

mutual

theorem gac_eq {α : Type} : ∀ t : TreeNode α,
    get_all_children t = (preorder t).map beauty_dict
  | .mk u d i cs => by
    rw [preorder, get_all_children, List.map_cons, gacList_eq cs]
    rfl

theorem gacList_eq {α : Type} : ∀ cs : Children α,
    gacList cs = (preorderList cs).map beauty_dict
  | .nil => rfl
  | .cons c rest => by
    rw [preorderList, gacList, List.map_append, gac_eq c, gacList_eq rest]

end

theorem preorderList_push {α : Type} (c : TreeNode α) : ∀ cs : Children α,
    preorderList (cs.push c) = preorderList cs ++ preorder c
  | .nil => by simp [Children.push, preorderList]
  | .cons x rest => by
    rw [Children.push, preorderList, preorderList, preorderList_push c rest,
      List.append_assoc]

/-! ### Lemmas about `_delete_children` (the deletion scan of `delete_node`) -/

theorem clid_isSome {d : Dict} (h : d ≠ []) :
    ∃ s, get_current_level_identifier d = some s := by
  obtain ⟨p, hl⟩ : ∃ p, d.getLast? = some p :=
    ⟨d.getLast h, List.getLast?_eq_getLast_of_ne_nil h⟩
  obtain ⟨k, v⟩ := p
  have hmem : (k, v) ∈ d := by
    have hd := List.dropLast_append_getLast? (k, v) (by rw [hl]; rfl)
    rw [← hd]
    simp
  cases hg : dictGet d k with
  | none => exact absurd hg (dictGet_isSome_of_mem hmem)
  | some v' => exact ⟨k ++ '=' :: v', by simp [get_current_level_identifier, hl, hg]⟩

theorem delete_scan {α : Type} {query : Str} {qcl : Str}
    (hq : queryCurrentLevel query = .ok qcl) :
    ∀ cs : Children α, wfC cs = true →
    (((preorderList cs).find?
        (fun n => get_current_level_identifier n.ident == some qcl) = none →
      _delete_children query cs = Except.ok none) ∧
     (∀ m : TreeNode α, (preorderList cs).find?
        (fun n => get_current_level_identifier n.ident == some qcl) = some m →
      ∃ cs', _delete_children query cs = Except.ok (some cs') ∧
        ((preorderList cs).map beauty_dict).Perm
          (((preorderList cs').map beauty_dict) ++ (preorder m).map beauty_dict)))
  | .nil => by
    intro _
    constructor
    · intro _; rfl
    · intro m hm; simp [preorderList] at hm
  | .cons (.mk u d i ccs) rest => by
    intro hwf
    simp only [wfC, wfT, Bool.and_eq_true] at hwf
    obtain ⟨⟨⟨hne, _⟩, hwfccs⟩, hwfrest⟩ := hwf
    have hne' : i ≠ [] := by simpa using hne
    obtain ⟨ccl, hccl⟩ := clid_isSome hne'
    have hcE : currentLevelE (TreeNode.mk u d i ccs) = .ok ccl := by
      simp [currentLevelE, TreeNode.ident, hccl]
    have hIH1 := delete_scan hq ccs hwfccs
    have hIH2 := delete_scan hq rest hwfrest
    have hpl : preorderList (Children.cons (TreeNode.mk u d i ccs) rest) =
        TreeNode.mk u d i ccs :: (preorderList ccs ++ preorderList rest) := by
      rw [preorderList, preorder, List.cons_append]
    by_cases hcq : ccl = qcl
    · -- the head child itself is spliced out
      have hpred : (fun n : TreeNode α =>
          get_current_level_identifier n.ident == some qcl) (TreeNode.mk u d i ccs) = true := by
        simp [TreeNode.ident, hccl, hcq]
      have hfind : (preorderList (Children.cons (TreeNode.mk u d i ccs) rest)).find?
          (fun n => get_current_level_identifier n.ident == some qcl) =
          some (TreeNode.mk u d i ccs) := by
        rw [hpl]
        exact List.find?_cons_of_pos _ hpred
      have hdel : _delete_children query (Children.cons (TreeNode.mk u d i ccs) rest) =
          Except.ok (some rest) := by
        simp [_delete_children, hcE, hq, hcq]
      constructor
      · intro hnone
        rw [hfind] at hnone
        cases hnone
      · intro m hm
        rw [hfind] at hm
        obtain rfl : TreeNode.mk u d i ccs = m := Option.some.inj hm
        refine ⟨rest, hdel, ?_⟩
        rw [hpl, preorder]
        simp only [List.map_cons, List.map_append]
        exact (List.Perm.cons _ List.perm_append_comm).trans List.perm_middle.symm
    · -- the head child does not match; scan below it, then the siblings
      have hpred : (fun n : TreeNode α =>
          get_current_level_identifier n.ident == some qcl) (TreeNode.mk u d i ccs) = false := by
        simp [TreeNode.ident, hccl, hcq]
      have hfind : (preorderList (Children.cons (TreeNode.mk u d i ccs) rest)).find?
          (fun n => get_current_level_identifier n.ident == some qcl) =
          ((preorderList ccs).find? (fun n => get_current_level_identifier n.ident == some qcl)).or
          ((preorderList rest).find? (fun n => get_current_level_identifier n.ident == some qcl)) := by
        rw [hpl, List.find?_cons_of_neg _ (by simp [hpred]), List.find?_append]
      cases hC : (preorderList ccs).find?
          (fun n => get_current_level_identifier n.ident == some qcl) with
      | some m =>
        obtain ⟨ccs', hdel1, hperm1⟩ := hIH1.2 m hC
        have hdel : _delete_children query (Children.cons (TreeNode.mk u d i ccs) rest) =
            Except.ok (some (Children.cons (TreeNode.mk u d i ccs') rest)) := by
          simp [_delete_children, hcE, hq, hcq, hdel1]
        constructor
        · intro hnone
          rw [hfind, hC] at hnone
          simp [Option.or] at hnone
        · intro m' hm'
          rw [hfind, hC] at hm'
          obtain rfl : m = m' := by simpa [Option.or] using hm'
          refine ⟨Children.cons (TreeNode.mk u d i ccs') rest, hdel, ?_⟩
          rw [hpl, preorderList, preorder, List.cons_append]
          simp only [List.map_cons, List.map_append]
          refine List.Perm.cons _ ?_
          refine List.Perm.trans (List.Perm.append_right _ hperm1) ?_
          simp only [List.append_eq, List.append_assoc]
          exact List.Perm.append_left _ List.perm_append_comm
      | none =>
        have hdel1 : _delete_children query ccs = Except.ok none := hIH1.1 hC
        cases hR : (preorderList rest).find?
            (fun n => get_current_level_identifier n.ident == some qcl) with
        | some m =>
          obtain ⟨rest', hdel2, hperm2⟩ := hIH2.2 m hR
          have hdel : _delete_children query (Children.cons (TreeNode.mk u d i ccs) rest) =
              Except.ok (some (Children.cons (TreeNode.mk u d i ccs) rest')) := by
            simp [_delete_children, hcE, hq, hcq, hdel1, hdel2]
          constructor
          · intro hnone
            rw [hfind, hC, hR] at hnone
            simp [Option.or] at hnone
          · intro m' hm'
            rw [hfind, hC, hR] at hm'
            obtain rfl : m = m' := by simpa [Option.or] using hm'
            refine ⟨Children.cons (TreeNode.mk u d i ccs) rest', hdel, ?_⟩
            rw [hpl, preorderList, preorder, List.cons_append]
            simp only [List.map_cons, List.map_append]
            refine List.Perm.cons _ ?_
            refine List.Perm.trans (List.Perm.append_left _ hperm2) ?_
            simp only [List.append_eq, List.append_assoc]
            exact List.Perm.refl _
        | none =>
          have hdel2 : _delete_children query rest = Except.ok none := hIH2.1 hR
          constructor
          · intro _
            simp [_delete_children, hcE, hq, hcq, hdel1, hdel2]
          · intro m hm
            rw [hfind, hC, hR] at hm
            simp [Option.or] at hm

/-! ### Lemmas about `appendFirst` (the `add_child` step of `insert_node`) -/

mutual

theorem appendFirst_flag {α : Type} (q : Dict) (c : TreeNode α) : ∀ t : TreeNode α,
    (appendFirst t q c).2 = (_search t q).isSome
  | .mk u d i cs => by
    by_cases h : matchesQ (.mk u d i cs) q
    · simp [appendFirst, _search, h]
    · simp [appendFirst, _search, h, appendFirstChildren_flag q c cs]

theorem appendFirstChildren_flag {α : Type} (q : Dict) (c : TreeNode α) :
    ∀ cs : Children α, (appendFirstChildren cs q c).2 = (_searchChildren cs q).isSome
  | .nil => rfl
  | .cons x rest => by
    have h1 := appendFirst_flag q c x
    have h2 := appendFirstChildren_flag q c rest
    simp only [appendFirstChildren, _searchChildren]
    cases hs : _search x q with
    | some r => rw [hs] at h1; simp [h1]
    | none => rw [hs] at h1; simp [h1, h2]

end

mutual

theorem appendFirst_perm {α : Type} (q : Dict) (c : TreeNode α) : ∀ t : TreeNode α,
    (appendFirst t q c).2 = true →
    ((preorder (appendFirst t q c).1).map beauty_dict).Perm
      ((preorder c).map beauty_dict ++ (preorder t).map beauty_dict)
  | .mk u d i cs => by
    by_cases h : matchesQ (.mk u d i cs) q
    · intro _
      simp only [appendFirst, if_pos h, preorder, List.map_cons]
      rw [preorderList_push, List.map_append]
      refine List.Perm.trans ?_ List.perm_middle.symm
      exact List.Perm.cons _ List.perm_append_comm
    · intro hf
      simp only [appendFirst, if_neg h] at hf ⊢
      have hp := appendFirstChildren_perm q c cs hf
      simp only [preorder, List.map_cons]
      exact List.Perm.trans (List.Perm.cons _ hp) List.perm_middle.symm

theorem appendFirstChildren_perm {α : Type} (q : Dict) (c : TreeNode α) :
    ∀ cs : Children α, (appendFirstChildren cs q c).2 = true →
    ((preorderList (appendFirstChildren cs q c).1).map beauty_dict).Perm
      ((preorder c).map beauty_dict ++ (preorderList cs).map beauty_dict)
  | .nil => by intro hf; simp [appendFirstChildren] at hf
  | .cons x rest => by
    intro hf
    cases hx : (appendFirst x q c).2 with
    | true =>
      have hgoal : appendFirstChildren (Children.cons x rest) q c =
          (Children.cons (appendFirst x q c).1 rest, true) := by
        simp [appendFirstChildren, hx]
      rw [hgoal]
      simp only [preorderList, List.map_append]
      have hp := appendFirst_perm q c x hx
      refine List.Perm.trans (List.Perm.append_right _ hp) ?_
      rw [List.append_assoc]
    | false =>
      have hgoal : appendFirstChildren (Children.cons x rest) q c =
          (Children.cons x (appendFirstChildren rest q c).1,
            (appendFirstChildren rest q c).2) := by
        simp [appendFirstChildren, hx]
      rw [hgoal] at hf ⊢
      simp only [preorderList, List.map_append] at hf ⊢
      have hp := appendFirstChildren_perm q c rest hf
      refine List.Perm.trans (List.Perm.append_left _ hp) ?_
      rw [← List.append_assoc, ← List.append_assoc]
      exact List.Perm.append_right _ List.perm_append_comm

end

theorem dictEqb_dictGet {a b : Dict} (ha : keysNodupB a = true)
    (hb : keysNodupB b = true) (h : dictEqb a b = true) (k : Str) :
    dictGet a k = dictGet b k := by
  have hperm := (dictEqb_iff_perm ha hb).mp h
  cases hga : dictGet a k with
  | some v =>
    exact (mem_dictGet hb (hperm.mem_iff.mp (dictGet_mem hga))).symm
  | none =>
    cases hgb : dictGet b k with
    | none => rfl
    | some v =>
      have : (k, v) ∈ a := hperm.mem_iff.mpr (dictGet_mem hgb)
      exact absurd (mem_dictGet ha this) (by simp [hga])

end TreeDb

namespace TreeDb

/-! ### Helper lemmas for the claim theorems -/

theorem matchesQ_of_ident {α : Type} {t : TreeNode α} {d : Dict} (h : t.ident = d)
    (hnd : keysNodupB d = true) : matchesQ t d = true := by
  simp only [matchesQ, h, List.all_eq_true]
  intro p hp
  simp [mem_dictGet hnd hp]

theorem matchesQ_ident_congr {α : Type} {x y : TreeNode α} (h : x.ident = y.ident)
    (q : Dict) : matchesQ x q = matchesQ y q := by
  simp [matchesQ, h]

theorem keysNodupB_dropLast {d : Dict} (h : keysNodupB d = true) :
    keysNodupB d.dropLast = true := by
  rw [keysNodupB_iff] at h ⊢
  rw [List.map_dropLast]
  exact h.sublist (List.dropLast_sublist _)

theorem wfT_ident_ne_nil {α : Type} {c : TreeNode α} (h : wfT c = true) :
    c.ident ≠ [] := by
  cases c with
  | mk u d i cs =>
    simp only [wfT, Bool.and_eq_true] at h
    simpa [TreeNode.ident] using h.1.1

theorem wfT_children {α : Type} {c : TreeNode α} (h : wfT c = true) :
    wfC c.children = true := by
  cases c with
  | mk u d i cs =>
    simp only [wfT, Bool.and_eq_true] at h
    simpa [TreeNode.children] using h.2

end TreeDb

namespace TreeDb

theorem insert_node_false {α : Type} {t : TreeNode α} {nd : α} {s : Str} {fid : Nat}
    {r : TreeNode α} {m : String}
    (h : insert_node t nd s fid = .ok (r, false, m)) : r = t := by
  cases hv : is_valid_new_node_identifier t s with
  | error e => simp [insert_node, hv] at h
  | ok b =>
    cases b with
    | false =>
      simp only [insert_node, hv, Except.ok.injEq, Prod.mk.injEq] at h
      exact h.1.symm
    | true =>
      cases hp : parse_identifier s with
      | none => simp [insert_node, hv, hp] at h
      | some d =>
        cases hl : d.getLast? with
        | none => simp [insert_node, hv, hp, hl] at h
        | some own =>
          cases hpp : parse_identifier (identStr d.dropLast) with
          | none => simp [insert_node, hv, hp, hl, hpp] at h
          | some pd =>
            cases hs : _search t pd with
            | none =>
              simp only [insert_node, hv, hp, hl, hpp, hs, Except.ok.injEq,
                Prod.mk.injEq] at h
              exact h.1.symm
            | some w =>
              by_cases hdup : (_extract_node_identifiers t).any (fun e => dictEqb e d) = true
              · simp only [insert_node, hv, hp, hl, hpp, hs, if_pos hdup,
                  Except.ok.injEq, Prod.mk.injEq] at h
                exact h.1.symm
              · simp only [insert_node, hv, hp, hl, hpp, hs, if_neg hdup,
                  Except.ok.injEq, Prod.mk.injEq] at h
                cases h.2.1

theorem update_node_false {α : Type} {t : TreeNode α} {q : Str} {nd : α}
    {r : TreeNode α} {m : String}
    (h : update_node t q nd = .ok (r, false, m)) : r = t := by
  cases hp : parse_identifier q with
  | none => simp [update_node, hp] at h
  | some d =>
    cases hs : _search t d with
    | none =>
      simp only [update_node, hp, hs, Except.ok.injEq, Prod.mk.injEq] at h
      exact h.1.symm
    | some w =>
      simp only [update_node, hp, hs, Except.ok.injEq, Prod.mk.injEq] at h
      cases h.2.1

theorem delete_node_false {α : Type} {t : TreeNode α} {q : Str}
    {r : TreeNode α} {m : String}
    (h : delete_node t q = .ok (r, false, m)) : r = t := by
  cases hf : find_by_query t q with
  | error e => simp [delete_node, hf] at h
  | ok o =>
    cases o with
    | none =>
      simp only [delete_node, hf, Except.ok.injEq, Prod.mk.injEq] at h
      exact h.1.symm
    | some w =>
      cases hd : _delete_children q t.children with
      | error e => simp [delete_node, hf, hd] at h
      | ok o2 =>
        cases o2 with
        | none =>
          simp only [delete_node, hf, hd, Except.ok.injEq, Prod.mk.injEq] at h
          exact h.1.symm
        | some cs' =>
          simp only [delete_node, hf, hd, Except.ok.injEq, Prod.mk.injEq] at h
          cases h.2.1

theorem insert_node_ok_inversion {α : Type} {t t' : TreeNode α} {nd : α} {s : Str}
    {fid : Nat} {m : String}
    (h : insert_node t nd s fid = .ok (t', true, m)) :
    ∃ d pd, parse_identifier s = some d ∧
      parse_identifier (identStr d.dropLast) = some pd ∧
      ((_extract_node_identifiers t).any (fun e => dictEqb e d)) = false ∧
      (appendFirst t pd (TreeNode.mk fid nd d .nil)).2 = true ∧
      t' = (appendFirst t pd (TreeNode.mk fid nd d .nil)).1 ∧
      m = "Node inserted successfully." := by
  cases hv : is_valid_new_node_identifier t s with
  | error e => simp [insert_node, hv] at h
  | ok b =>
    cases b with
    | false =>
      simp only [insert_node, hv, Except.ok.injEq, Prod.mk.injEq] at h
      cases h.2.1
    | true =>
      cases hp : parse_identifier s with
      | none => simp [insert_node, hv, hp] at h
      | some d =>
        cases hl : d.getLast? with
        | none => simp [insert_node, hv, hp, hl] at h
        | some own =>
          cases hpp : parse_identifier (identStr d.dropLast) with
          | none => simp [insert_node, hv, hp, hl, hpp] at h
          | some pd =>
            cases hs : _search t pd with
            | none =>
              simp only [insert_node, hv, hp, hl, hpp, hs, Except.ok.injEq,
                Prod.mk.injEq] at h
              cases h.2.1
            | some w =>
              by_cases hdup : (_extract_node_identifiers t).any (fun e => dictEqb e d) = true
              · simp only [insert_node, hv, hp, hl, hpp, hs, if_pos hdup,
                  Except.ok.injEq, Prod.mk.injEq] at h
                cases h.2.1
              · simp only [insert_node, hv, hp, hl, hpp, hs, if_neg hdup,
                  Except.ok.injEq, Prod.mk.injEq] at h
                have hflag : (appendFirst t pd (TreeNode.mk fid nd d .nil)).2 = true := by
                  rw [appendFirst_flag, hs]
                  rfl
                exact ⟨d, pd, rfl, hpp, by simpa using hdup, hflag,
                  h.1.symm, h.2.2.symm⟩

end TreeDb

namespace TreeDb

mutual

theorem struct_ok {α : Type} : ∀ t : TreeNode α, wfT t = true →
    ∃ st, get_tree_structure t = .ok st
  | .mk u d i .nil => fun _ => ⟨.leafList, rfl⟩
  | .mk u d i (.cons c rest) => by
    intro hwf
    simp only [wfT, Bool.and_eq_true] at hwf
    obtain ⟨e, he⟩ := structFold_ok (Children.cons c rest) hwf.2 []
    exact ⟨.mapping e, by simp [get_tree_structure, he]⟩

theorem structFold_ok {α : Type} : ∀ cs : Children α, wfC cs = true →
    ∀ acc, ∃ e, structFold cs acc = .ok e
  | .nil => fun _ acc => ⟨acc, rfl⟩
  | .cons c rest => by
    intro hwf acc
    simp only [wfC, Bool.and_eq_true] at hwf
    obtain ⟨hc, hrest⟩ := hwf
    obtain ⟨k, hk⟩ := clid_isSome (wfT_ident_ne_nil hc)
    obtain ⟨st, hst⟩ := struct_ok c hc
    obtain ⟨e, he⟩ := structFold_ok rest hrest (dictInsert acc k st)
    exact ⟨e, by simp [structFold, hk, hst, he]⟩

end

theorem mem_keys_dictInsert {β : Type} {d : List (Str × β)} {k : Str} {v : β} {s : Str} :
    s ∈ (dictInsert d k v).map Prod.fst ↔ s ∈ d.map Prod.fst ∨ s = k := by
  induction d with
  | nil => simp [dictInsert]
  | cons p rest ih =>
    obtain ⟨k0, v0⟩ := p
    by_cases hk : k0 = k
    · subst hk
      have hd : dictInsert ((k0, v0) :: rest) k0 v = (k0, v) :: rest := by
        simp [dictInsert]
      rw [hd]
      simp only [List.map_cons, List.mem_cons]
      tauto
    · simp only [dictInsert, if_neg hk, List.map_cons, List.mem_cons, ih]
      tauto

theorem structFold_spec {α : Type} :
    ∀ (cs : Children α) (acc e : List (Str × TreeStructure)),
    structFold cs acc = .ok e →
    (∀ s, s ∈ e.map Prod.fst ↔
      (s ∈ acc.map Prod.fst ∨
        ∃ c ∈ cs.toList, get_current_level_identifier c.ident = some s)) ∧
    (∀ p ∈ e, p ∈ acc ∨ ∃ c ∈ cs.toList,
      get_current_level_identifier c.ident = some p.1 ∧ get_tree_structure c = .ok p.2)
  | .nil => by
    intro acc e h
    have hae : acc = e := Except.ok.inj h
    subst hae
    constructor
    · intro s
      constructor
      · exact fun h2 => Or.inl h2
      · intro h2
        rcases h2 with h2 | ⟨c, hc, _⟩
        · exact h2
        · exact absurd hc (List.not_mem_nil c)
    · intro p hp
      exact Or.inl hp
  | .cons c rest => by
    intro acc e h
    cases hk : get_current_level_identifier c.ident with
    | none => simp [structFold, hk] at h
    | some k =>
      cases hst : get_tree_structure c with
      | error er => simp [structFold, hk, hst] at h
      | ok st =>
        simp only [structFold, hk, hst] at h
        have ih := structFold_spec rest (dictInsert acc k st) e h
        constructor
        · intro s
          rw [ih.1 s, mem_keys_dictInsert]
          simp only [Children.toList, List.mem_cons]
          constructor
          · intro hcase
            rcases hcase with (ha | hs) | ⟨c', hc', hcl⟩
            · exact Or.inl ha
            · exact Or.inr ⟨c, Or.inl rfl, by rw [hk, hs]⟩
            · exact Or.inr ⟨c', Or.inr hc', hcl⟩
          · intro hcase
            rcases hcase with ha | ⟨c', hc', hcl⟩
            · exact Or.inl (Or.inl ha)
            · rcases hc' with hc' | hc'
              · subst hc'
                rw [hk] at hcl
                exact Or.inl (Or.inr (Option.some.inj hcl).symm)
              · exact Or.inr ⟨c', hc', hcl⟩
        · intro p hp
          rcases ih.2 p hp with hin | ⟨c', hc', hcl, hstc⟩
          · rcases mem_dictInsert hin with ha | hpkv
            · exact Or.inl ha
            · refine Or.inr ⟨c, List.mem_cons_self c rest.toList, ?_, ?_⟩
              · rw [hk, hpkv]
              · rw [hst, hpkv]
          · exact Or.inr ⟨c', List.mem_cons_of_mem c hc', hcl, hstc⟩

end TreeDb

namespace TreeDb

/-! ### Claim theorems -/

/-- **C2** counterexample: the claim says two identifiers with the same
pairs in a different order are *not* equal, but `NodeIdentifier.__eq__`
compares the underlying Python dicts, and dict equality ignores insertion
order: the identifiers parsed from `"a=1,b=2"` and `"b=2,a=1"` compare
equal although their ordered pair sequences differ. -/
theorem c2_counterexample :
    parse_identifier "a=1,b=2".toList =
      some [("a".toList, "1".toList), ("b".toList, "2".toList)] ∧
    parse_identifier "b=2,a=1".toList =
      some [("b".toList, "2".toList), ("a".toList, "1".toList)] ∧
    dictEqb [("a".toList, "1".toList), ("b".toList, "2".toList)]
      [("b".toList, "2".toList), ("a".toList, "1".toList)] = true ∧
    [("a".toList, "1".toList), ("b".toList, "2".toList)] ≠
      [("b".toList, "2".toList), ("a".toList, "1".toList)] := by
  refine ⟨by decide, by decide, by decide, by decide⟩

/-- **C2** (amended): two `NodeIdentifier`s (dicts with pairwise distinct
keys) compare equal under `NodeIdentifier.__eq__` iff their pair sequences
are permutations of one another (same pairs, order-insensitive) — not iff
their ordered sequences are equal. -/
theorem c2_identifier_equality {a b : Dict} (ha : keysNodupB a = true)
    (hb : keysNodupB b = true) : dictEqb a b = true ↔ a.Perm b :=
  dictEqb_iff_perm ha hb

/-- Witness for **C2** at concrete identifiers. -/
theorem c2_witness :
    keysNodupB [("a".toList, "1".toList), ("b".toList, "2".toList)] = true ∧
    keysNodupB [("b".toList, "2".toList), ("a".toList, "1".toList)] = true ∧
    (dictEqb [("a".toList, "1".toList), ("b".toList, "2".toList)]
        [("b".toList, "2".toList), ("a".toList, "1".toList)] = true ↔
      List.Perm [("a".toList, "1".toList), ("b".toList, "2".toList)]
        [("b".toList, "2".toList), ("a".toList, "1".toList)]) :=
  ⟨by decide, by decide, c2_identifier_equality (by decide) (by decide)⟩

/-- **C5** counterexample: `"a=1,a=2"` is of the form `"k1=v1,k2=v2"`
(every segment contains an equals sign), yet parsing yields a single pair
(the dict collapses the duplicate key, last value winning) and re-rendering
produces `"a=2"`, not the original text. -/
theorem c5_counterexample :
    parse_identifier "a=1,a=2".toList = some [("a".toList, "2".toList)] ∧
    identStr [("a".toList, "2".toList)] = "a=2".toList ∧
    "a=2".toList ≠ "a=1,a=2".toList ∧
    ([("a".toList, "2".toList)] : Dict).length ≠ 2 := by
  refine ⟨by decide, by decide, by decide, by decide⟩

/-- **C5** (amended): for every valid identifier text of the form
`"k1=v1,...,kn=vn"` with *pairwise distinct keys* (each segment containing
exactly one equals sign, i.e. no separator characters inside keys or
values), parsing yields exactly the n pairs in declaration order, so
re-rendering the parsed pairs reproduces the original text.  The text of
that form is written as `identStr l` for the ordered pair list `l`. -/
theorem c5_parse_render_roundtrip (l : Dict) (h1 : l ≠ [])
    (h2 : keysNodupB l = true) (h3 : ∀ p ∈ l, goodPair p) :
    parse_identifier (identStr l) = some l :=
  parse_identifier_identStr h1 h2 h3

/-- Witness for **C5** at the text `"o=root,m=a"`. -/
theorem c5_witness :
    ([("o".toList, "root".toList), ("m".toList, "a".toList)] : Dict) ≠ [] ∧
    keysNodupB [("o".toList, "root".toList), ("m".toList, "a".toList)] = true ∧
    (∀ p ∈ ([("o".toList, "root".toList), ("m".toList, "a".toList)] : Dict), goodPair p) ∧
    parse_identifier
      (identStr [("o".toList, "root".toList), ("m".toList, "a".toList)]) =
      some [("o".toList, "root".toList), ("m".toList, "a".toList)] :=
  ⟨by decide, by decide, by decide,
    c5_parse_render_roundtrip _ (by decide) (by decide) (by decide)⟩

/-- **C6** (confirmed): for every parseable query text, `find_by_query`
returns exactly the first node of the pre-order listing (node before its
children, children left to right) that subset-matches the parsed query —
`matchesQ` demands every (key, value) pair of the query be present with an
equal value in the node's identifier, ignoring extra pairs — and the
absent result (`none`) when no node matches, since `List.find?` returns
`none` exactly then. -/
theorem c6_find_by_query_preorder {α : Type} (t : TreeNode α) {q : Str} {qd : Dict}
    (hp : parse_identifier q = some qd) :
    find_by_query t q = .ok ((preorder t).find? (fun n => matchesQ n qd)) := by
  simp [find_by_query, hp, _search_eq_find]

/-- Witness for **C6** on the three-node tree `t2`. -/
theorem c6_witness :
    parse_identifier "o=root,m=a".toList =
      some [("o".toList, "root".toList), ("m".toList, "a".toList)] ∧
    find_by_query t2 "o=root,m=a".toList =
      .ok ((preorder t2).find?
        (fun n => matchesQ n [("o".toList, "root".toList), ("m".toList, "a".toList)])) :=
  ⟨by decide, c6_find_by_query_preorder t2 (by decide)⟩

/-- **C7** counterexample: on the text `"o=root,x"` (second segment has no
equals sign) every one of `find_by_query`, `insert_node`, `update_node`
and `delete_node` raises the `ValueError` from `parse_identifier`
(`Except.error`), instead of returning a `(success flag, message)`
result as the claim states. -/
theorem c7_counterexample :
    parse_identifier "o=root,x".toList = none ∧
    find_by_query root0 "o=root,x".toList = .error () ∧
    insert_node root0 1 "o=root,x".toList 1 = .error () ∧
    update_node root0 "o=root,x".toList 9 = .error () ∧
    delete_node root0 "o=root,x".toList = .error () := by
  refine ⟨by decide, by decide, by decide, by decide, by decide⟩

/-- **C7** (amended): for every identifier text containing a segment
without an equals sign, parsing fails and the failure is *raised* (it
propagates to the caller as an exception, `Except.error`), not returned as
a `(success flag, message)` result: query, update and delete propagate it
unconditionally, and insert propagates it whenever the text passes the
root-key prefix check (when the prefix check fails, insert returns the
`"Invalid new node identifier."` flag result without ever parsing). -/
theorem c7_parse_error_propagates {α : Type} (t : TreeNode α) (db : TreeDataBase α)
    (s : Str) (nd : α) (fid : Nat) (hp : parse_identifier s = none) :
    find_by_query t s = .error () ∧
    update_node t s nd = .error () ∧
    delete_node t s = .error () ∧
    (is_valid_new_node_identifier t s = .ok true → insert_node t nd s fid = .error ()) ∧
    (is_valid_new_node_identifier t s = .ok false →
      insert_node t nd s fid = .ok (t, false, "Invalid new node identifier.")) ∧
    db.query s = .error () ∧
    db.update s nd = .error () ∧
    db.delete s = .error () ∧
    (is_valid_new_node_identifier db.root s = .ok true →
      db.insert nd s fid = .error ()) := by
  refine ⟨?_, ?_, ?_, ?_, ?_, ?_, ?_, ?_, ?_⟩
  · simp [find_by_query, hp]
  · simp [update_node, hp]
  · simp [delete_node, find_by_query, hp]
  · intro hv
    simp [insert_node, hv, hp]
  · intro hv
    simp [insert_node, hv]
  · simp [TreeDataBase.query, find_by_query, hp]
  · simp [TreeDataBase.update, update_node, hp]
  · simp [TreeDataBase.delete, delete_node, find_by_query, hp]
  · intro hv
    simp [TreeDataBase.insert, insert_node, hv, hp]

/-- Witness for **C7** at the store `db0` and text `"o=root,x"`. -/
theorem c7_witness :
    parse_identifier "o=root,x".toList = none ∧
    (find_by_query root0 "o=root,x".toList = .error () ∧
      update_node root0 "o=root,x".toList 9 = .error () ∧
      delete_node root0 "o=root,x".toList = .error () ∧
      (is_valid_new_node_identifier root0 "o=root,x".toList = .ok true →
        insert_node root0 9 "o=root,x".toList 7 = .error ()) ∧
      (is_valid_new_node_identifier root0 "o=root,x".toList = .ok false →
        insert_node root0 9 "o=root,x".toList 7 =
          .ok (root0, false, "Invalid new node identifier.")) ∧
      db0.query "o=root,x".toList = .error () ∧
      db0.update "o=root,x".toList 9 = .error () ∧
      db0.delete "o=root,x".toList = .error () ∧
      (is_valid_new_node_identifier db0.root "o=root,x".toList = .ok true →
        db0.insert 9 "o=root,x".toList 7 = .error ())) :=
  ⟨by decide, c7_parse_error_propagates root0 db0 "o=root,x".toList 9 7 (by decide)⟩

end TreeDb

namespace TreeDb

/-- **C1** counterexample: the claim includes duplicates of the root
itself, but inserting the text `"o=root"` — structurally equal to the
identifier of the root of `root0` — does not fail with the duplicate
message: the ancestor prefix of a single-pair identifier is the empty
string, and parsing it raises `ValueError` (`Except.error`), before the
duplicate check is ever reached. -/
theorem c1_counterexample :
    parse_identifier "o=root".toList = some root0.ident ∧
    root0 ∈ preorder root0 ∧
    insert_node root0 5 "o=root".toList 1 = .error () := by
  refine ⟨by decide, by decide, by decide⟩

/-- **C1** (amended): for every tree and every identifier text that passes
the root-key prefix check, parses to a dict of at least two pairs, and is
structurally equal to the identifier of some node already in the tree (at
any depth), `insert_node` fails with the duplicate message and leaves the
tree unchanged.  (A text equal to a *single-pair* root identifier instead
raises a `ValueError` while parsing the empty ancestor prefix — see the
counterexample.) -/
theorem c1_duplicate_insert {α : Type} {t : TreeNode α} {nd : α} {s : Str} {d : Dict}
    {fid : Nat} {n : TreeNode α}
    (hv : is_valid_new_node_identifier t s = .ok true)
    (hp : parse_identifier s = some d)
    (hlen : 2 ≤ d.length)
    (hn : n ∈ preorder t) (hid : n.ident = d) :
    insert_node t nd s fid =
      .ok (t, false, "A node with this identifier already exists.") := by
  obtain ⟨hdne, hdnd, hdgood⟩ := parse_identifier_props hp
  obtain ⟨own, hl⟩ : ∃ own, d.getLast? = some own :=
    ⟨d.getLast hdne, List.getLast?_eq_getLast_of_ne_nil hdne⟩
  have hpre_ne : d.dropLast ≠ [] := by
    have hlen2 : d.dropLast.length = d.length - 1 := List.length_dropLast d
    intro he
    rw [he] at hlen2
    simp at hlen2
    omega
  have hpre_nd : keysNodupB d.dropLast = true := keysNodupB_dropLast hdnd
  have hpre_good : ∀ p ∈ d.dropLast, goodPair p :=
    fun p hp2 => hdgood p ((List.dropLast_sublist d).subset hp2)
  have hpp : parse_identifier (identStr d.dropLast) = some d.dropLast :=
    parse_identifier_identStr hpre_ne hpre_nd hpre_good
  have hmatch : matchesQ n d.dropLast = true := by
    simp only [matchesQ, List.all_eq_true]
    intro p hp2
    have hmem : p ∈ d := (List.dropLast_sublist d).subset hp2
    rw [hid]
    simp [mem_dictGet hdnd (show (p.1, p.2) ∈ d by simpa using hmem)]
  obtain ⟨w, hw⟩ : ∃ w, _search t d.dropLast = some w := by
    rw [_search_eq_find]
    cases hfind : (preorder t).find? (fun x => matchesQ x d.dropLast) with
    | some w => exact ⟨w, rfl⟩
    | none => exact absurd hmatch (by simpa using List.find?_eq_none.mp hfind n hn)
  have hdup : (_extract_node_identifiers t).any (fun e => dictEqb e d) = true := by
    rw [extract_eq]
    simp only [List.any_eq_true]
    exact ⟨n.ident, List.mem_map_of_mem TreeNode.ident hn,
      by rw [hid]; exact dictEqb_refl hdnd⟩
  simp [insert_node, hv, hp, hl, hpp, hw, hdup]

/-- Witness for **C1**: inserting `"o=root,m=a"` into `t1`, which already
holds a node with that identifier, fails with the duplicate message and
returns the tree unchanged. -/
theorem c1_witness :
    is_valid_new_node_identifier t1 "o=root,m=a".toList = .ok true ∧
    parse_identifier "o=root,m=a".toList =
      some [("o".toList, "root".toList), ("m".toList, "a".toList)] ∧
    2 ≤ ([("o".toList, "root".toList), ("m".toList, "a".toList)] : Dict).length ∧
    TreeNode.mk 1 1 [("o".toList, "root".toList), ("m".toList, "a".toList)]
      Children.nil ∈ preorder t1 ∧
    insert_node t1 5 "o=root,m=a".toList 9 =
      .ok (t1, false, "A node with this identifier already exists.") :=
  ⟨by decide, by decide, by decide, by decide,
    @c1_duplicate_insert Nat t1 5 "o=root,m=a".toList
      [("o".toList, "root".toList), ("m".toList, "a".toList)] 9
      (TreeNode.mk 1 1 [("o".toList, "root".toList), ("m".toList, "a".toList)]
        Children.nil)
      (by decide) (by decide) (by decide) (by decide) rfl⟩

end TreeDb

namespace TreeDb

/-- **C3** (confirmed): when some node subset-matches the delete query and
some non-root node's current-level identifier equals the query's,
`delete_node` succeeds and removes exactly the first node, in the
pre-order traversal of parent–child pairs starting from the root's
children (`preorderList t.children`), whose current-level identifier (last
`key=value` pair, compared alone — never the full path) equals the
query's; the whole subtree of that node disappears with it, which the
conclusion states as a permutation between the old node multiset and the
new node multiset plus the removed subtree (nodes compared by their
`beauty_dict` record: identity, payload, identifier). -/
theorem c3_delete_first_current_level {α : Type} {t : TreeNode α} {q : Str}
    {qd : Dict} {qcl : Str} {m : TreeNode α}
    (hwf : wfT t = true)
    (hp : parse_identifier q = some qd)
    (hqcl : queryCurrentLevel q = .ok qcl)
    (hfound : _search t qd ≠ none)
    (hm : (preorderList t.children).find?
        (fun n => get_current_level_identifier n.ident == some qcl) = some m) :
    ∃ cs', delete_node t q = .ok (t.setChildren cs', true, "Node deleted successfully.") ∧
      ((preorderList t.children).map beauty_dict).Perm
        (((preorderList cs').map beauty_dict) ++ (preorder m).map beauty_dict) := by
  obtain ⟨w, hw⟩ : ∃ w, _search t qd = some w := by
    cases hs : _search t qd with
    | none => exact absurd hs hfound
    | some w => exact ⟨w, rfl⟩
  obtain ⟨cs', hdel, hperm⟩ := (delete_scan hqcl t.children (wfT_children hwf)).2 m hm
  refine ⟨cs', ?_, hperm⟩
  simp [delete_node, find_by_query, hp, hw, hdel]

/-- Witness for **C3**: deleting `"o=root,m=a"` from the three-node chain
`t2` removes the `m=a` node together with its `c=1` child. -/
theorem c3_witness :
    wfT t2 = true ∧
    parse_identifier "o=root,m=a".toList =
      some [("o".toList, "root".toList), ("m".toList, "a".toList)] ∧
    queryCurrentLevel "o=root,m=a".toList = .ok "m=a".toList ∧
    _search t2 [("o".toList, "root".toList), ("m".toList, "a".toList)] ≠ none ∧
    (preorderList t2.children).find?
      (fun n => get_current_level_identifier n.ident == some "m=a".toList) =
      some (TreeNode.mk 1 1 [("o".toList, "root".toList), ("m".toList, "a".toList)]
        (Children.cons
          (TreeNode.mk 2 2 [("o".toList, "root".toList), ("m".toList, "a".toList),
            ("c".toList, "1".toList)] Children.nil)
          Children.nil)) ∧
    (∃ cs', delete_node t2 "o=root,m=a".toList =
        .ok (t2.setChildren cs', true, "Node deleted successfully.") ∧
      ((preorderList t2.children).map beauty_dict).Perm
        (((preorderList cs').map beauty_dict) ++
          (preorder (TreeNode.mk 1 1
            [("o".toList, "root".toList), ("m".toList, "a".toList)]
            (Children.cons
              (TreeNode.mk 2 2 [("o".toList, "root".toList), ("m".toList, "a".toList),
                ("c".toList, "1".toList)] Children.nil)
              Children.nil))).map beauty_dict)) :=
  ⟨by decide, by decide, by decide, by decide, by decide,
    @c3_delete_first_current_level Nat t2 "o=root,m=a".toList
      [("o".toList, "root".toList), ("m".toList, "a".toList)] "m=a".toList
      (TreeNode.mk 1 1 [("o".toList, "root".toList), ("m".toList, "a".toList)]
        (Children.cons
          (TreeNode.mk 2 2 [("o".toList, "root".toList), ("m".toList, "a".toList),
            ("c".toList, "1".toList)] Children.nil)
          Children.nil))
      (by decide) (by decide) (by decide) (by decide) (by decide)⟩

/-- **C10** counterexample: in `tX` (root `"a=1,b=2,c=3"` with the single
child `"a=1,c=3"`), the query `"b=2,c=3"` subset-matches *only* the root,
yet `delete_node` does not return a not-found failure: the child's
current-level identifier `c=3` equals the query's, so the child is removed
and success is reported. -/
theorem c10_counterexample :
    parse_identifier "b=2,c=3".toList =
      some [("b".toList, "2".toList), ("c".toList, "3".toList)] ∧
    ((preorder tX).filter
      (fun n => matchesQ n [("b".toList, "2".toList), ("c".toList, "3".toList)])).map
        TreeNode.uuid = [0] ∧
    (delete_node tX "b=2,c=3".toList).map
      (fun r => ((preorder r.1).map TreeNode.uuid, r.2.1, r.2.2)) =
      .ok ([0], true, "Node deleted successfully.") := by
  refine ⟨by decide, by decide, by decide⟩

/-- **C10** (amended): the root node is never removed — after any delete
call that returns, the result tree's root keeps its identity, payload and
identifier, because `_delete_node` only ever splices entries out of
children lists.  And a delete whose query subset-matches only the root
returns the not-found failure *provided* no non-root node's current-level
identifier equals the query's current-level identifier; when some node's
child does carry the query's trailing pair, that child is removed instead
and success is reported even though `find_by_query` only found the root
(see the counterexample). -/
theorem c10_root_never_removed {α : Type} (t : TreeNode α) (q : Str) :
    (∀ t' b m2, delete_node t q = .ok (t', b, m2) →
      t'.uuid = t.uuid ∧ t'.data = t.data ∧ t'.ident = t.ident) ∧
    (∀ qd qcl r, wfT t = true → parse_identifier q = some qd →
      queryCurrentLevel q = .ok qcl → _search t qd = some r →
      (∀ n ∈ preorderList t.children,
        ¬ get_current_level_identifier n.ident = some qcl) →
      delete_node t q = .ok (t, false, "Node not found.")) := by
  constructor
  · intro t' b m2 h
    cases hf : find_by_query t q with
    | error e => simp [delete_node, hf] at h
    | ok o =>
      cases o with
      | none =>
        simp only [delete_node, hf, Except.ok.injEq, Prod.mk.injEq] at h
        rw [← h.1]
        exact ⟨rfl, rfl, rfl⟩
      | some w =>
        cases hd : _delete_children q t.children with
        | error e => simp [delete_node, hf, hd] at h
        | ok o2 =>
          cases o2 with
          | none =>
            simp only [delete_node, hf, hd, Except.ok.injEq, Prod.mk.injEq] at h
            rw [← h.1]
            exact ⟨rfl, rfl, rfl⟩
          | some cs' =>
            simp only [delete_node, hf, hd, Except.ok.injEq, Prod.mk.injEq] at h
            rw [← h.1]
            cases t with
            | mk u dd i cs => exact ⟨rfl, rfl, rfl⟩
  · intro qd qcl r hwf hp hqcl hs hnone
    have hfind : (preorderList t.children).find?
        (fun n => get_current_level_identifier n.ident == some qcl) = none := by
      apply List.find?_eq_none.mpr
      intro n hn
      simpa using hnone n hn
    have hdel := (delete_scan hqcl t.children (wfT_children hwf)).1 hfind
    simp [delete_node, find_by_query, hp, hs, hdel]

/-- Witness for **C10**: on `tY` (root `"a=1,b=2"` with child `"a=1,x=9"`)
the query `"b=2"` finds the root via subset match, no child carries the
trailing pair `b=2`, and delete reports not-found with the tree intact. -/
theorem c10_witness :
    (∀ t' b m2, delete_node tY "b=2".toList = .ok (t', b, m2) →
      t'.uuid = tY.uuid ∧ t'.data = tY.data ∧ t'.ident = tY.ident) ∧
    wfT tY = true ∧
    parse_identifier "b=2".toList = some [("b".toList, "2".toList)] ∧
    queryCurrentLevel "b=2".toList = .ok "b=2".toList ∧
    _search tY [("b".toList, "2".toList)] = some tY ∧
    (∀ n ∈ preorderList tY.children,
      ¬ get_current_level_identifier n.ident = some "b=2".toList) ∧
    delete_node tY "b=2".toList = .ok (tY, false, "Node not found.") :=
  ⟨(c10_root_never_removed tY "b=2".toList).1, by decide, by decide, by decide,
    by decide, by decide,
    (c10_root_never_removed tY "b=2".toList).2 [("b".toList, "2".toList)]
      "b=2".toList tY (by decide) (by decide) (by decide) (by decide) (by decide)⟩

end TreeDb

namespace TreeDb

/-- **C4** counterexample: in `t2` (root, `m=a`, `m=a,c=1`), inserting
`"o=root,c=1"` succeeds and creates a node with identity 3, but a query on
that exact identifier text returns the *older* node with identity 2, whose
identifier `o=root,m=a,c=1` subset-matches the query and comes first in
pre-order; `getAllChildren` does list the new node exactly once, but the
claim's "returns the newly inserted node" fails. -/
theorem c4_counterexample :
    insert_node t2 3 "o=root,c=1".toList 3 =
      .ok (t3, true, "Node inserted successfully.") ∧
    parse_identifier "o=root,c=1".toList =
      some [("o".toList, "root".toList), ("c".toList, "1".toList)] ∧
    (find_by_query t3 "o=root,c=1".toList).map (Option.map beauty_dict) =
      .ok (some ⟨2, 2, [("o".toList, "root".toList), ("m".toList, "a".toList),
        ("c".toList, "1".toList)]⟩) ∧
    ([("o".toList, "root".toList), ("m".toList, "a".toList),
        ("c".toList, "1".toList)] : Dict) ≠
      [("o".toList, "root".toList), ("c".toList, "1".toList)] ∧
    (2 : Nat) ≠ 3 := by
  refine ⟨by decide, by decide, by decide, by decide, by decide⟩

/-- **C4** (amended): after a successful insert, `get_all_children` lists
the new node (the `beauty_dict` record carrying the fresh identity, the
inserted payload and the parsed identifier) exactly once, and a query on
the exact identifier text returns the *first node in pre-order of the
updated tree* whose identifier subset-matches the parsed query; such a
node always exists (the new node itself matches), and it is the newly
inserted node whenever no node of the original tree subset-matches the
query.  When some prior node does subset-match, the query returns
whichever subset-match comes first in the updated tree's pre-order — an
older node when the prior match precedes the new node (see the
counterexample), the new node when it comes first. -/
theorem c4_insert_then_query {α : Type} [DecidableEq α] {t t' : TreeNode α} {nd : α}
    {s : Str} {fid : Nat} {m : String} {d : Dict}
    (hins : insert_node t nd s fid = .ok (t', true, m))
    (hp : parse_identifier s = some d) :
    (get_all_children t').count ⟨fid, nd, d⟩ = 1 ∧
    find_by_query t' s = .ok ((preorder t').find? (fun x => matchesQ x d)) ∧
    ∃ n, (preorder t').find? (fun x => matchesQ x d) = some n ∧ matchesQ n d = true ∧
      ((preorder t).find? (fun x => matchesQ x d) = none →
        beauty_dict n = ⟨fid, nd, d⟩) := by
  obtain ⟨d0, pd, hp0, hpp, hdupf, hflag, ht', hmsg⟩ := insert_node_ok_inversion hins
  rw [hp0] at hp
  obtain rfl : d0 = d := Option.some.inj hp
  obtain ⟨hdne, hdnd, _⟩ := parse_identifier_props hp0
  have hperm := appendFirst_perm pd (TreeNode.mk fid nd d0 Children.nil) t hflag
  rw [← ht'] at hperm
  have hpre1 : preorder (TreeNode.mk fid nd d0 Children.nil) =
      [TreeNode.mk fid nd d0 Children.nil] := rfl
  rw [hpre1] at hperm
  rw [extract_eq] at hdupf
  have hold : (⟨fid, nd, d0⟩ : Beauty α) ∉ (preorder t).map beauty_dict := by
    intro hmem
    obtain ⟨x, hx, hbx⟩ := List.mem_map.mp hmem
    have hxid : x.ident = d0 := congrArg Beauty.node_id hbx
    have hno := List.any_eq_false.mp hdupf x.ident (List.mem_map_of_mem _ hx)
    exact hno (by rw [hxid]; exact dictEqb_refl hdnd)
  have hfq : find_by_query t' s = .ok ((preorder t').find? (fun n => matchesQ n d0)) := by
    simp [find_by_query, hp0, _search_eq_find]
  have hmemb : (⟨fid, nd, d0⟩ : Beauty α) ∈ (preorder t').map beauty_dict :=
    hperm.mem_iff.mpr (List.mem_append.mpr (Or.inl
      (by simp [beauty_dict, TreeNode.uuid, TreeNode.data, TreeNode.ident])))
  obtain ⟨x, hx, hbx⟩ := List.mem_map.mp hmemb
  have hxmatch : matchesQ x d0 = true :=
    matchesQ_of_ident (congrArg Beauty.node_id hbx) hdnd
  refine ⟨?_, hfq, ?_⟩
  · rw [gac_eq, List.Perm.count_eq hperm, List.count_append,
      List.count_eq_zero.mpr hold]
    simp [beauty_dict, TreeNode.uuid, TreeNode.data, TreeNode.ident]
  · cases hfind : (preorder t').find? (fun n => matchesQ n d0) with
    | none => exact absurd hxmatch (by simpa using List.find?_eq_none.mp hfind x hx)
    | some n =>
      refine ⟨n, rfl, by simpa using List.find?_some hfind, ?_⟩
      intro hnone
      have hnmem : n ∈ preorder t' := List.mem_of_find?_eq_some hfind
      have hb := hperm.mem_iff.mp (List.mem_map_of_mem beauty_dict hnmem)
      rcases List.mem_append.mp hb with h1 | h1
      · exact List.mem_singleton.mp
          (by simpa [beauty_dict, TreeNode.uuid, TreeNode.data, TreeNode.ident] using h1)
      · obtain ⟨y, hy, hby⟩ := List.mem_map.mp h1
        have hymatch : matchesQ y d0 = true := by
          rw [matchesQ_ident_congr (congrArg Beauty.node_id hby) d0]
          simpa using List.find?_some hfind
        exact absurd hymatch (by simpa using List.find?_eq_none.mp hnone y hy)

/-- Witness for **C4**: inserting `"o=root,m=a"` into the one-node tree
`root0`. -/
theorem c4_witness :
    insert_node root0 1 "o=root,m=a".toList 1 =
      .ok (t1, true, "Node inserted successfully.") ∧
    parse_identifier "o=root,m=a".toList =
      some [("o".toList, "root".toList), ("m".toList, "a".toList)] ∧
    ((get_all_children t1).count
        ⟨1, 1, [("o".toList, "root".toList), ("m".toList, "a".toList)]⟩ = 1 ∧
      find_by_query t1 "o=root,m=a".toList =
        .ok ((preorder t1).find?
          (fun x => matchesQ x [("o".toList, "root".toList), ("m".toList, "a".toList)])) ∧
      ∃ n, (preorder t1).find?
          (fun x => matchesQ x [("o".toList, "root".toList), ("m".toList, "a".toList)]) =
            some n ∧
        matchesQ n [("o".toList, "root".toList), ("m".toList, "a".toList)] = true ∧
        ((preorder root0).find?
            (fun x => matchesQ x [("o".toList, "root".toList), ("m".toList, "a".toList)]) =
              none →
          beauty_dict n =
            ⟨1, 1, [("o".toList, "root".toList), ("m".toList, "a".toList)]⟩)) :=
  ⟨by decide, by decide,
    @c4_insert_then_query Nat _ root0 t1 1 "o=root,m=a".toList 1
      "Node inserted successfully."
      [("o".toList, "root".toList), ("m".toList, "a".toList)]
      (by decide) (by decide)⟩

end TreeDb

namespace TreeDb

/-- **C8** (confirmed): on an initialized store (nonempty `db_path`), each
mutating operation persists the whole tree (the persisted blob becomes the
new root) exactly when the in-memory `TreeNode` operation reports success,
before the success is returned; on failure nothing is persisted, the store
is unchanged (the in-memory operation returns the tree untouched on every
failure path) and the message is passed through verbatim; and `query` only
delegates to `find_by_query` on the root — it yields no new store at all,
so it can never persist. -/
theorem c8_store_persistence {α : Type} (db : TreeDataBase α) (nd : α) (s q : Str)
    (fid : Nat) (hpath : db.db_path ≠ []) :
    (∀ r m2, insert_node db.root nd s fid = .ok (r, true, m2) →
      db.insert nd s fid =
        .ok ({ root := r, db_path := db.db_path, saved := some r }, true, m2)) ∧
    (∀ r m2, insert_node db.root nd s fid = .ok (r, false, m2) →
      db.insert nd s fid = .ok (db, false, m2)) ∧
    (∀ r m2, update_node db.root q nd = .ok (r, true, m2) →
      db.update q nd =
        .ok ({ root := r, db_path := db.db_path, saved := some r }, true, m2)) ∧
    (∀ r m2, update_node db.root q nd = .ok (r, false, m2) →
      db.update q nd = .ok (db, false, m2)) ∧
    (∀ r m2, delete_node db.root q = .ok (r, true, m2) →
      db.delete q =
        .ok ({ root := r, db_path := db.db_path, saved := some r }, true, m2)) ∧
    (∀ r m2, delete_node db.root q = .ok (r, false, m2) →
      db.delete q = .ok (db, false, m2)) ∧
    db.query q = find_by_query db.root q := by
  refine ⟨?_, ?_, ?_, ?_, ?_, ?_, rfl⟩
  · intro r m2 h
    simp [TreeDataBase.insert, h, TreeDataBase.save_cb, hpath]
  · intro r m2 h
    obtain rfl : r = db.root := insert_node_false h
    simp [TreeDataBase.insert, h]
  · intro r m2 h
    simp [TreeDataBase.update, h, TreeDataBase.save_cb, hpath]
  · intro r m2 h
    obtain rfl : r = db.root := update_node_false h
    simp [TreeDataBase.update, h]
  · intro r m2 h
    simp [TreeDataBase.delete, h, TreeDataBase.save_cb, hpath]
  · intro r m2 h
    obtain rfl : r = db.root := delete_node_false h
    simp [TreeDataBase.delete, h]

/-- Witness for **C8** at the concrete store `db0`. -/
theorem c8_witness :
    db0.db_path ≠ [] ∧
    ((∀ r m2, insert_node db0.root 1 "o=root,m=a".toList 1 = .ok (r, true, m2) →
      db0.insert 1 "o=root,m=a".toList 1 =
        .ok ({ root := r, db_path := db0.db_path, saved := some r }, true, m2)) ∧
    (∀ r m2, insert_node db0.root 1 "o=root,m=a".toList 1 = .ok (r, false, m2) →
      db0.insert 1 "o=root,m=a".toList 1 = .ok (db0, false, m2)) ∧
    (∀ r m2, update_node db0.root "o=root".toList 1 = .ok (r, true, m2) →
      db0.update "o=root".toList 1 =
        .ok ({ root := r, db_path := db0.db_path, saved := some r }, true, m2)) ∧
    (∀ r m2, update_node db0.root "o=root".toList 1 = .ok (r, false, m2) →
      db0.update "o=root".toList 1 = .ok (db0, false, m2)) ∧
    (∀ r m2, delete_node db0.root "o=root".toList = .ok (r, true, m2) →
      db0.delete "o=root".toList =
        .ok ({ root := r, db_path := db0.db_path, saved := some r }, true, m2)) ∧
    (∀ r m2, delete_node db0.root "o=root".toList = .ok (r, false, m2) →
      db0.delete "o=root".toList = .ok (db0, false, m2)) ∧
    db0.query "o=root".toList = find_by_query db0.root "o=root".toList) :=
  ⟨by decide,
    c8_store_persistence db0 1 "o=root,m=a".toList "o=root".toList 1 (by decide)⟩

/-- **C9** (confirmed): on every well-formed tree, `get_tree_structure`
returns the empty-list marker (`TreeStructure.leafList`, distinct from an
empty mapping) for a node without children, and otherwise a mapping whose
key set is exactly the set of the children's current-level identifier
strings, every entry holding the recursively exported structure of a child
carrying that current-level identifier (when two children share a
current-level identifier, the dict assignment keeps the last one's
structure under the shared key, so an entry-bearing child always
exists). -/
theorem c9_export_structure {α : Type} (t : TreeNode α) (hwf : wfT t = true) :
    (t.children = .nil → get_tree_structure t = .ok .leafList) ∧
    (t.children ≠ .nil → ∃ entries, get_tree_structure t = .ok (.mapping entries) ∧
      (∀ s, s ∈ entries.map Prod.fst ↔
        ∃ c ∈ t.children.toList, get_current_level_identifier c.ident = some s) ∧
      (∀ p ∈ entries, ∃ c ∈ t.children.toList,
        get_current_level_identifier c.ident = some p.1 ∧
          get_tree_structure c = .ok p.2)) := by
  cases t with
  | mk u d i cs =>
    cases cs with
    | nil =>
      exact ⟨fun _ => rfl, fun h => absurd
        (show (TreeNode.mk u d i Children.nil).children = Children.nil from rfl) h⟩
    | cons c rest =>
      constructor
      · intro h
        exact absurd h (by simp [TreeNode.children])
      · intro _
        have hwfc : wfC (Children.cons c rest) = true := wfT_children hwf
        obtain ⟨e, he⟩ := structFold_ok (Children.cons c rest) hwfc []
        have hspec := structFold_spec (Children.cons c rest) [] e he
        refine ⟨e, by simp [get_tree_structure, he], ?_, ?_⟩
        · intro s2
          rw [hspec.1 s2]
          simp [TreeNode.children]
        · intro p hp2
          rcases hspec.2 p hp2 with h1 | h1
          · exact absurd h1 (List.not_mem_nil p)
          · simpa [TreeNode.children] using h1

/-- Witness for **C9** on the two-level tree `t2` and its leaf child. -/
theorem c9_witness :
    wfT t2 = true ∧
    ((t2.children = .nil → get_tree_structure t2 = .ok .leafList) ∧
    (t2.children ≠ .nil → ∃ entries, get_tree_structure t2 = .ok (.mapping entries) ∧
      (∀ s, s ∈ entries.map Prod.fst ↔
        ∃ c ∈ t2.children.toList, get_current_level_identifier c.ident = some s) ∧
      (∀ p ∈ entries, ∃ c ∈ t2.children.toList,
        get_current_level_identifier c.ident = some p.1 ∧
          get_tree_structure c = .ok p.2))) :=
  ⟨by decide, c9_export_structure t2 (by decide)⟩

end TreeDb
